import Mathlib

/-!
Verification of the dependency-to-constituency conversion pipeline of
`educe.rst_dt.dep2con`: the nuclearity classifier, the inside-out
attachment ranker, and the recursive tree builder.

The embedding follows `src/educe/rst_dt/dep2con.py`.  The supporting
data structures (`Span`, `EDU`, `RstDepTree`, `SimpleRSTTree`) live in
modules that are not part of the sources at hand; those definitions are
modelled from the specification and are marked as such in their doc
comments.
-/

/-- Modelled from the spec: a half-open character span with fields
`char_start` and `char_end` (the `educe.annotation.Span` used by
`dep2con` is not among the sources). -/
structure Span where
  char_start : Nat
  char_end : Nat
deriving DecidableEq, Repr

/-- Modelled from the spec: two half-open spans overlap when they share
a character position (`Span.overlaps` in the missing module; used
boolean-ly by `connect_trees`). -/
def Span.overlapsb (a b : Span) : Bool :=
  decide (max a.char_start b.char_start < min a.char_end b.char_end)

/-- Modelled from the spec: the comparison written `src.span <= tgt.span`
in `connect_trees`; for non-overlapping non-empty spans it holds exactly
when the first span is textually earlier. -/
def Span.leb (a b : Span) : Bool :=
  decide (a.char_start < b.char_start ∨
          (a.char_start = b.char_start ∧ a.char_end ≤ b.char_end))

/-- Modelled from the spec: `Span.merge` is the union (interval hull) of
two spans. -/
def Span.merge (a b : Span) : Span :=
  Span.mk (min a.char_start b.char_start) (max a.char_end b.char_end)

/-- Modelled from the spec: an elementary discourse unit, its index in
textual order (`num`) and its character span (`text_span()` returns the
span). -/
structure EDU where
  num : Nat
  span : Span
deriving DecidableEq, Repr

instance : Inhabited EDU := ⟨⟨0, ⟨0, 0⟩⟩⟩

/-- Modelled from the spec: nuclearity values `NUC_N`, `NUC_S`, `NUC_R`
from `educe.rst_dt.deptree`. -/
inductive Nuc where
  | N : Nuc
  | S : Nuc
  | R : Nuc
deriving DecidableEq, Repr

/-- Nucleus constant, `NUC_N` in the source. -/
def NUC_N : Nuc := Nuc.N

/-- Satellite constant, `NUC_S` in the source. -/
def NUC_S : Nuc := Nuc.S

/-- Root constant, `NUC_R` in the source. -/
def NUC_R : Nuc := Nuc.R

/-- Modelled from the spec: the `Node` carried at each position of a
`SimpleRSTTree`: nuclearity, edu span (pair of unit indices), character
span and relation label. -/
structure RNode where
  nuclearity : Nuc
  edu_span : Nat × Nat
  span : Span
  rel : String
deriving DecidableEq, Repr

/-- Modelled from the spec: a constituency tree node.  In the source a
`SimpleRSTTree` holds a `Node` plus a list of children which is either a
list of subtrees or a single EDU (`kids = parts.kids or [parts.edu]` in
`parts_to_tree`); the two possibilities are the `kids` list and the
`edukid` option. -/
inductive SimpleRSTTree where
  | mk (node : RNode) (kids : List SimpleRSTTree) (edukid : Option EDU) : SimpleRSTTree

/-- Projection of the `Node` of a tree, `treenode` in the source. -/
def SimpleRSTTree.nodeOf : SimpleRSTTree → RNode
  | .mk nd _ _ => nd

/-- The `TreeParts` namedtuple of `dep2con.py`: partially built RST tree
(`edu edu_span span rel kids`). -/
structure TreeParts where
  edu : EDU
  edu_span : Nat × Nat
  span : Span
  rel : String
  kids : List SimpleRSTTree

/-- Modelled from the spec: the input dependency tree (`RstDepTree`,
whose module is not among the sources): parallel arrays over `n+1`
nodes, node `0` a synthetic fake root whose head entry is `-1`; `idx`
maps a node to its raw array position and `sent_idx`, when present,
maps raw positions to sentence ids; `ranks` is the attachment-rank
annotation consumed by `deps`. -/
structure DepTree where
  heads : List Int
  labels : List String
  nucs : List Nuc
  edus : List EDU
  idx : List Int
  sent_idx : Option (List Int)
  ranks : List Nat
deriving Inhabited

/-- Python list indexing with an `Int` subscript and a default: a
negative subscript counts from the end of the list, as in Python.
(Out-of-range accesses, which raise in Python, return the default.) -/
def pyGetD {α : Type} (l : List α) (i : Int) (dflt : α) : α :=
  if 0 ≤ i then l.getD i.toNat dflt
  else l.getD (l.length - (-i).toNat) dflt

/-- Modelled from the spec: `RstDepTree.deps(i)` returns the dependents
of node `i` sorted by rank, ascending (the builder obtains the children
already ranked). -/
def DepTree.deps (d : DepTree) (i : Nat) : List Nat :=
  List.insertionSort (fun a b => d.ranks.getD a 0 ≤ d.ranks.getD b 0)
    ((List.range d.heads.length).filter (fun j => decide (d.heads.getD j (-1) = (i : Int))))

/-- Modelled from the spec: `RstDepTree.real_roots_idx()`: the nodes
`i > 0` attached to the fake root, i.e. with `head[i] == 0`. -/
def DepTree.real_roots_idx (d : DepTree) : List Nat :=
  (List.range d.heads.length).filter
    (fun i => decide (1 ≤ i ∧ d.heads.getD i (-1) = 0))

/-- The `mk_leaf` helper of `deptree_to_simple_rst_tree`: trivial
partial tree for a dependency leaf. -/
def mk_leaf (edu : EDU) : TreeParts :=
  TreeParts.mk edu (edu.num, edu.num) edu.span "leaf" []

/-- The `parts_to_tree` helper: combine nuclearity information with a
partial tree to form a full `SimpleRSTTree` (the source computes
`kids = parts.kids or [parts.edu]`). -/
def parts_to_tree (nuclearity : Nuc) (parts : TreeParts) : SimpleRSTTree :=
  match parts.kids with
  | [] => SimpleRSTTree.mk (RNode.mk nuclearity parts.edu_span parts.span parts.rel)
      [] (some parts.edu)
  | ks => SimpleRSTTree.mk (RNode.mk nuclearity parts.edu_span parts.span parts.rel)
      ks none

/-- The `connect_trees` helper: combine the ancestor-ward partial tree
`src` with the subtree `tgt`, assigning order and nuclearity to the two
children; fails when the spans overlap. -/
def connect_trees (src tgt : TreeParts) (rel : String) (nuc : Nuc) :
    Except String TreeParts :=
  let tgt_nuc := nuc
  if Span.overlapsb src.span tgt.span then
    .error "Span overlaps"
  else
    let lr :=
      if Span.leb src.span tgt.span then
        (parts_to_tree NUC_N src, parts_to_tree tgt_nuc tgt)
      else
        (parts_to_tree tgt_nuc tgt, parts_to_tree NUC_N src)
    let l_edu_span := lr.1.nodeOf.edu_span
    let r_edu_span := lr.2.nodeOf.edu_span
    .ok (TreeParts.mk src.edu
          (min l_edu_span.1 r_edu_span.1, max l_edu_span.2 r_edu_span.2)
          (src.span.merge tgt.span) rel [lr.1, lr.2])

/-- The recursive `walk` of `deptree_to_simple_rst_tree`: build the
partial tree for `subtree` by folding `walk` over its ranked dependents,
then connect it to `ancestor` when one is given.  The `fuel` argument
makes the recursion structural; since any node reachable from the real
root has a duplicate-free head chain, `heads.length` fuel is never
exhausted on the trees the Python code terminates on. -/
def walk (d : DepTree) : Nat → Option TreeParts → Nat → Except String TreeParts
  | 0, _, _ => .error "out of fuel"
  | fuel + 1, ancestor, subtree => do
    let rel := d.labels.getD subtree ""
    let nuc := d.nucs.getD subtree NUC_S
    let src ← (d.deps subtree).foldlM
        (fun s tgt => walk d fuel (some s) tgt)
        (mk_leaf (d.edus.getD subtree default))
    match ancestor with
    | some anc => connect_trees anc src rel nuc
    | none => pure src

/-- The function `deptree_to_simple_rst_tree`: fails unless the tree has
exactly one real root, then walks the tree from that root and wraps the
result with `NUC_R`. -/
def deptree_to_simple_rst_tree (d : DepTree) : Except String SimpleRSTTree :=
  match d.real_roots_idx with
  | [real_root] => (parts_to_tree NUC_R) <$> walk d d.heads.length none real_root
  | _ => .error "Cannot convert RstDepTree to SimpleRSTTree, multiple roots"

/-- The `DummyNuclearityClassifier` before fitting: it records the
strategy string; its constructor performs no validation. -/
structure DummyNuclearityClassifier where
  strategy : String

/-- Constructor of `DummyNuclearityClassifier`: stores the strategy
without checking it (the check happens in `fit`). -/
def dummy_classifier_init (strategy : String) :
    Except String DummyNuclearityClassifier :=
  .ok (DummyNuclearityClassifier.mk strategy)

/-- A fitted `DummyNuclearityClassifier`: strategy plus the derived
multinuclear label set `multinuc_lbls`. -/
structure FittedDummyClassifier where
  strategy : String
  multinuc_lbls : List String

/-- The `fit` method of `DummyNuclearityClassifier`: rejects unknown
strategy names, otherwise derives `multinuc_lbls`.  The frequency table
consulted by the strategy `most_frequent_by_rel` comes from
`corpus_diagnostics` (not among the sources); modelled from the spec as
an explicit association list from relation label to its majority
nuclearity pattern, from which the labels whose pattern is `NN` are
selected. -/
def dummy_classifier_fit (c : DummyNuclearityClassifier)
    (freq_table : List (String × String)) :
    Except String FittedDummyClassifier :=
  if c.strategy ≠ "unamb_else_most_frequent" ∧ c.strategy ≠ "most_frequent_by_rel" then
    .error "Unknown strategy type."
  else if c.strategy = "unamb_else_most_frequent" then
    .ok (FittedDummyClassifier.mk c.strategy ["joint", "same-unit", "textual"])
  else
    .ok (FittedDummyClassifier.mk c.strategy
          ((freq_table.filter (fun p => decide (p.2 = "NN"))).map (fun p => p.1)))

/-- The `predict` method of `DummyNuclearityClassifier`: for every tree,
one nuclearity per entry of its label array, `NUC_N` when the label is
in `multinuc_lbls` and `NUC_S` otherwise. -/
def dummy_classifier_predict (c : FittedDummyClassifier) (X : List DepTree) :
    List (List Nuc) :=
  X.map (fun dtree =>
    dtree.labels.map (fun rel => if rel ∈ c.multinuc_lbls then NUC_N else NUC_S))

/-- The strategy names accepted by `InsideOutAttachmentRanker.__init__`. -/
def rankerStrategies : List String :=
  ["id", "lllrrr", "rrrlll", "lrlrlr", "rlrlrl",
   "closest-lr", "closest-rl",
   "closest-intra-lr-inter-lr", "closest-intra-rl-inter-rl",
   "closest-intra-rl-inter-lr"]

/-- The `InsideOutAttachmentRanker`: its constructor validates the
strategy name eagerly. -/
structure InsideOutAttachmentRanker where
  strategy : String

/-- Constructor of `InsideOutAttachmentRanker`: raises on an unknown
strategy name. -/
def ranker_init (strategy : String) : Except String InsideOutAttachmentRanker :=
  if strategy ∈ rankerStrategies then .ok (InsideOutAttachmentRanker.mk strategy)
  else .error "Unknown transformation strategy"

/-- The per-head target list of `predict`: the nodes whose head entry
equals `head`, in array order (Python `enumerate`). -/
def headTargets (d : DepTree) (head : Int) : List Nat :=
  (List.range d.heads.length).filter (fun i => decide (d.heads.getD i (-1) = head))

/-- The character-start sort key used to build `sorted_nodes`
(`dtree.edus[x].span.char_start`, with Python `Int` indexing). -/
def startKey (d : DepTree) (x : Int) : Nat :=
  (pyGetD d.edus x default).span.char_start

/-- The list `sorted_nodes = sorted([head] + targets, key=char_start)`;
Python `sorted` is stable, and so is `insertionSort`, hence they agree
for this total preorder. -/
def sortedNodes (d : DepTree) (head : Int) : List Int :=
  List.insertionSort (fun a b => startKey d a ≤ startKey d b)
    (head :: (headTargets d head).map Int.ofNat)

/-- Python `list.pop()`: removes and returns the last element; raises on
an empty list. -/
def popLast : List Int → Except String (Int × List Int)
  | [] => .error "pop from empty list"
  | [x] => .ok (x, [])
  | x :: y :: rest => do
      let p ← popLast (y :: rest)
      .ok (p.1, x :: p.2)

/-- The `id` strategy loop:
`[left.pop() if (tree in left) else right.pop() for tree in targets]`,
with the two stacks threaded through the comprehension. -/
def idFill : List Nat → List Int → List Int → Except String (List Int)
  | [], _, _ => .ok []
  | t :: ts, left, right =>
    if (t : Int) ∈ left then do
      let p ← popLast left
      let rest ← idFill ts p.2 right
      .ok (p.1 :: rest)
    else do
      let p ← popLast right
      let rest ← idFill ts left p.2
      .ok (p.1 :: rest)

/-- The `lllrrr` strategy loop:
`[left.pop() if left else right.pop() for _ in targets]`. -/
def lllFill : Nat → List Int → List Int → Except String (List Int)
  | 0, _, _ => .ok []
  | n + 1, left, right =>
    if left ≠ [] then do
      let p ← popLast left
      let rest ← lllFill n p.2 right
      .ok (p.1 :: rest)
    else do
      let p ← popLast right
      let rest ← lllFill n left p.2
      .ok (p.1 :: rest)

/-- The `rrrlll` strategy loop:
`[right.pop() if right else left.pop() for _ in targets]`. -/
def rrrFill : Nat → List Int → List Int → Except String (List Int)
  | 0, _, _ => .ok []
  | n + 1, left, right =>
    if right ≠ [] then do
      let p ← popLast right
      let rest ← rrrFill n left p.2
      .ok (p.1 :: rest)
    else do
      let p ← popLast left
      let rest ← rrrFill n p.2 right
      .ok (p.1 :: rest)

/-- Flattened `izip_longest` with `None` entries dropped, as used by the
alternating strategies. -/
def izipFlat : List Int → List Int → List Int
  | [], ys => ys
  | x :: xs, [] => x :: xs
  | x :: xs, y :: ys => x :: y :: izipFlat xs ys

/-- Lexicographic comparison of `Nat` pairs, the order induced by a
two-component Python sort key. -/
def lex2 (p q : Nat × Nat) : Prop :=
  p.1 < q.1 ∨ (p.1 = q.1 ∧ p.2 ≤ q.2)

instance : DecidableRel lex2 := fun p q => by unfold lex2; infer_instance

/-- Lexicographic comparison of `Nat` triples, the order induced by a
three-component Python sort key. -/
def lex3 (p q : Nat × Nat × Nat) : Prop :=
  p.1 < q.1 ∨ (p.1 = q.1 ∧ lex2 p.2 q.2)

instance : DecidableRel lex3 := fun p q => by unfold lex3; infer_instance

/-- The two `closest-*` sort keys: absolute `idx` distance from the
head, then a side flag (`rightFlag` for a dependent with larger `idx`
than the head, `leftFlag` otherwise). -/
def closestKey (d : DepTree) (head : Int) (rightFlag leftFlag : Nat) (e : Int) :
    Nat × Nat :=
  let head_idx := pyGetD d.idx head 0
  ((pyGetD d.idx e 0 - head_idx).natAbs,
   if head_idx < pyGetD d.idx e 0 then rightFlag else leftFlag)

/-- The stable sort of `targets` under a `closest-*` key (Python
`sorted(targets, key=sort_key)`). -/
def sortClosest (d : DepTree) (head : Int) (rightFlag leftFlag : Nat)
    (targets : List Nat) : List Int :=
  List.insertionSort
    (fun a b => lex2 (closestKey d head rightFlag leftFlag a)
                     (closestKey d head rightFlag leftFlag b))
    (targets.map Int.ofNat)

/-- Same-sentence test of the `closest-intra-*` strategies:
`dtree.sent_idx[dtree.idx[e]] == dtree.sent_idx[dtree.idx[head]]`. -/
def sameSent (d : DepTree) (sids : List Int) (head e : Int) : Bool :=
  decide (pyGetD sids (pyGetD d.idx e 0) 0 = pyGetD sids (pyGetD d.idx head 0) 0)

/-- The three-component key of `closest-intra-rl-inter-lr`: intra before
inter, then distance, then right-first inside a sentence and left-first
across sentences. -/
def intraKeyRLLR (d : DepTree) (sids : List Int) (head : Int) (e : Int) :
    Nat × Nat × Nat :=
  let head_idx := pyGetD d.idx head 0
  (if sameSent d sids head e then 1 else 2,
   (pyGetD d.idx e 0 - head_idx).natAbs,
   if (head_idx < pyGetD d.idx e 0 ∧ sameSent d sids head e) ∨
      (pyGetD d.idx e 0 < head_idx ∧ ¬sameSent d sids head e) then 1 else 2)

/-- The three-component key of `closest-intra-rl-inter-rl`: intra before
inter, then distance, then right over left. -/
def intraKeyRLRL (d : DepTree) (sids : List Int) (head : Int) (e : Int) :
    Nat × Nat × Nat :=
  let head_idx := pyGetD d.idx head 0
  (if sameSent d sids head e then 1 else 2,
   (pyGetD d.idx e 0 - head_idx).natAbs,
   if head_idx < pyGetD d.idx e 0 then 1 else 2)

/-- The three-component key of `closest-intra-lr-inter-lr`: intra before
inter, then distance, then left over right. -/
def intraKeyLRLR (d : DepTree) (sids : List Int) (head : Int) (e : Int) :
    Nat × Nat × Nat :=
  let head_idx := pyGetD d.idx head 0
  (if sameSent d sids head e then 1 else 2,
   (pyGetD d.idx e 0 - head_idx).natAbs,
   if head_idx < pyGetD d.idx e 0 then 2 else 1)

/-- The stable sort of `targets` under a `closest-intra-*` key. -/
def sortIntra (key : Int → Nat × Nat × Nat) (targets : List Nat) : List Int :=
  List.insertionSort (fun a b => lex3 (key a) (key b)) (targets.map Int.ofNat)

/-- The body of the per-head loop of `InsideOutAttachmentRanker.predict`:
produce the attachment order (`result` in the source) for the dependents
of `head`, or fail as the source does. -/
def headOrder (strategy : String) (d : DepTree) (head : Int) :
    Except String (List Int) :=
  let targets := headTargets d head
  let sn := sortedNodes d head
  let centre := sn.indexOf head
  let left := sn.take centre
  let right := (sn.drop (centre + 1)).reverse
  if strategy = "id" then
    idFill targets left right
  else if strategy = "lllrrr" then
    lllFill targets.length left right
  else if strategy = "rrrlll" then
    rrrFill targets.length left right
  else if strategy = "lrlrlr" then
    .ok (izipFlat left.reverse right.reverse)
  else if strategy = "rlrlrl" then
    .ok (izipFlat right.reverse left.reverse)
  else if strategy = "closest-rl" then
    .ok (sortClosest d head 1 2 targets)
  else if strategy = "closest-lr" then
    .ok (sortClosest d head 2 1 targets)
  else
    match d.sent_idx with
    | none => .error "Strategy depends on sentential information which is missing here"
    | some sids =>
      if strategy = "closest-intra-rl-inter-lr" then
        .ok (sortIntra (intraKeyRLLR d sids head) targets)
      else if strategy = "closest-intra-rl-inter-rl" then
        .ok (sortIntra (intraKeyRLRL d sids head) targets)
      else if strategy = "closest-intra-lr-inter-lr" then
        .ok (sortIntra (intraKeyLRLR d sids head) targets)
      else
        .error "Unknown transformation strategy"

/-- The rank-array update `for i, tgt in enumerate(result): ranks[tgt] = i`. -/
def applyRanks (ranks : List Nat) (result : List Int) : List Nat :=
  result.enum.foldl (fun r p => r.set p.2.toNat p.1) ranks

/-- The distinct heads examined by `predict`: `set(dtree.heads[1:])`.
The iteration order of a Python set is unspecified; the per-head updates
touch disjoint rank positions and the possible errors do not depend on
the order, so a deterministic first-occurrence order is a faithful
model. -/
def uniqueHeads (d : DepTree) : List Int :=
  (d.heads.drop 1).dedup

/-- The per-tree body of `InsideOutAttachmentRanker.predict`: start from
an all-zero rank array and fill in the ranks head by head. -/
def predictOne (strategy : String) (d : DepTree) : Except String (List Nat) :=
  (uniqueHeads d).foldlM
    (fun ranks head => (applyRanks ranks) <$> headOrder strategy d head)
    (List.replicate d.heads.length 0)

/-- The method `InsideOutAttachmentRanker.predict` over a batch of
trees. -/
def ranker_predict (r : InsideOutAttachmentRanker) (X : List DepTree) :
    Except String (List (List Nat)) :=
  X.mapM (predictOne r.strategy)

mutual

/-- The left-to-right leaf sequence (EDUs) of a constituency tree. -/
def leavesT : SimpleRSTTree → List EDU
  | .mk _ [] e => e.toList
  | .mk _ (k :: ks) _ => leavesL (k :: ks)

/-- Leaf sequences of a list of trees, concatenated in order. -/
def leavesL : List SimpleRSTTree → List EDU
  | [] => []
  | t :: ts => leavesT t ++ leavesL ts

end

/-- The leaf sequence of a partial tree: its two combined children when
present, otherwise its own anchor EDU (matching what `parts_to_tree`
would produce). -/
def leavesP (p : TreeParts) : List EDU :=
  match p.kids with
  | [] => [p.edu]
  | ks => leavesL ks

mutual

/-- The recursive invariant of claim C3 as a decidable check: every
internal node has exactly two children, its span is the merge of the
children's node spans, and the children's node spans do not overlap. -/
def checkT : SimpleRSTTree → Bool
  | .mk _ [] _ => true
  | .mk nd [l, r] _ =>
    decide (nd.span = l.nodeOf.span.merge r.nodeOf.span) &&
      !(Span.overlapsb l.nodeOf.span r.nodeOf.span) &&
      checkT l && checkT r
  | .mk _ (_ :: _ :: _ :: _) _ => false
  | .mk _ [_] _ => false

end

mutual

/-- The leaf-relation invariant of claim C9 as a decidable check: every
leaf node carries the relation label `leaf`. -/
def relsT : SimpleRSTTree → Bool
  | .mk nd [] _ => decide (nd.rel = "leaf")
  | .mk _ (k :: ks) _ => relsL (k :: ks)

/-- Conjunction of `relsT` over a list of trees. -/
def relsL : List SimpleRSTTree → Bool
  | [] => true
  | t :: ts => relsT t && relsL ts

end

/-- The node set the builder's `walk` traverses below a node, with the
same fuel discipline as `walk`. -/
def visited (d : DepTree) : Nat → Nat → List Nat
  | 0, _ => []
  | fuel + 1, i => i :: (d.deps i).flatMap (visited d fuel)

/-- The EDU stored at node `j`. -/
def eduAt (d : DepTree) (j : Nat) : EDU :=
  d.edus.getD j default

/-- Well-formedness of an input dependency tree, following the spec's
data-model invariants: node `0` is the fake root with head `-1`; every
real node names a head inside the array; the head relation is acyclic
(witnessed by a depth certificate); the arrays are parallel; every real
unit has a non-empty span and carries its own index as `num`. -/
structure WFDepTree (d : DepTree) : Prop where
  len_pos : 0 < d.heads.length
  head0 : d.heads.getD 0 0 = -1
  head_lb : ∀ i, i < d.heads.length → 1 ≤ i → 0 ≤ d.heads.getD i (-1)
  head_ub : ∀ i, i < d.heads.length → 1 ≤ i →
    (d.heads.getD i (-1)).toNat < d.heads.length
  acyclic : ∃ depthf : Nat → Nat, ∀ i, i < d.heads.length → 1 ≤ i →
    (d.heads.getD i (-1)).toNat ≠ 0 →
    depthf ((d.heads.getD i (-1)).toNat) < depthf i
  edus_len : d.edus.length = d.heads.length
  spans_ne : ∀ i, i < d.heads.length → 1 ≤ i →
    (eduAt d i).span.char_start < (eduAt d i).span.char_end
  nums : ∀ i, i < d.heads.length → (eduAt d i).num = i

lemma Span.merge_comm (a b : Span) : a.merge b = b.merge a := by
  unfold Span.merge
  rw [Nat.min_comm, Nat.max_comm]

lemma Span.overlapsb_comm (a b : Span) : a.overlapsb b = b.overlapsb a := by
  unfold Span.overlapsb
  rw [Nat.max_comm, Nat.min_comm]

lemma nodeOf_parts_to_tree (nuc : Nuc) (p : TreeParts) :
    (parts_to_tree nuc p).nodeOf = RNode.mk nuc p.edu_span p.span p.rel := by
  unfold parts_to_tree
  cases p.kids <;> rfl

lemma leavesT_parts_to_tree (nuc : Nuc) (p : TreeParts) :
    leavesT (parts_to_tree nuc p) = leavesP p := by
  unfold parts_to_tree leavesP
  cases p.kids <;> rfl

lemma relsT_parts_to_tree (nuc nuc' : Nuc) (p : TreeParts) :
    relsT (parts_to_tree nuc p) = relsT (parts_to_tree nuc' p) := by
  unfold parts_to_tree
  cases p.kids <;> rfl

lemma checkT_parts_to_tree (nuc nuc' : Nuc) (p : TreeParts) :
    checkT (parts_to_tree nuc p) = checkT (parts_to_tree nuc' p) := by
  unfold parts_to_tree
  cases hk : p.kids with
  | nil => rfl
  | cons k ks =>
    cases ks with
    | nil => rfl
    | cons k2 ks2 => cases ks2 <;> rfl

/-- C6: `deptree_to_simple_rst_tree` fails with a structural error, and
returns no tree, whenever the input has zero real roots or more than one
real root; it can return a tree only when exactly one real root exists. -/
theorem c6_convert_requires_unique_root (d : DepTree) :
    (d.real_roots_idx.length ≠ 1 →
      ∃ e, deptree_to_simple_rst_tree d = .error e) ∧
    (∀ t, deptree_to_simple_rst_tree d = .ok t → d.real_roots_idx.length = 1) := by
  constructor
  · intro hne
    unfold deptree_to_simple_rst_tree
    rcases hl : d.real_roots_idx with _ | ⟨r, _ | ⟨s, rest⟩⟩
    · exact ⟨_, rfl⟩
    · rw [hl] at hne; simp at hne
    · exact ⟨_, rfl⟩
  · intro t hok
    unfold deptree_to_simple_rst_tree at hok
    rcases hl : d.real_roots_idx with _ | ⟨r, _ | ⟨s, rest⟩⟩ <;> rw [hl] at hok
    · simp at hok
    · rfl
    · simp at hok

/-- Example input with two real roots: nodes 1 and 2 both have head 0. -/
def exTwoRoots : DepTree :=
  DepTree.mk [-1, 0, 0] ["", "a", "b"] [NUC_S, NUC_S, NUC_S]
    [⟨0, ⟨0, 0⟩⟩, ⟨1, ⟨0, 5⟩⟩, ⟨2, ⟨6, 9⟩⟩] [0, 1, 2] none [0, 0, 0]

/-- Example input with exactly one real root and no further dependents. -/
def exOneRoot : DepTree :=
  DepTree.mk [-1, 0] ["", "a"] [NUC_S, NUC_S]
    [⟨0, ⟨0, 0⟩⟩, ⟨1, ⟨0, 5⟩⟩] [0, 1] none [0, 0]

theorem c6_convert_requires_unique_root_witness :
    (∃ e, deptree_to_simple_rst_tree exTwoRoots = .error e) ∧
    exOneRoot.real_roots_idx.length = 1 :=
  ⟨(c6_convert_requires_unique_root exTwoRoots).1 (by decide),
   (c6_convert_requires_unique_root exOneRoot).2
     (SimpleRSTTree.mk (RNode.mk NUC_R (1, 1) ⟨0, 5⟩ "leaf") [] (some ⟨1, ⟨0, 5⟩⟩))
     (by rfl)⟩

/-- C10: for every fitted classifier and every input tree of the batch,
`predict` returns one entry per node of the tree's label array (the
synthetic fake root at index 0 included, classified from `labels[0]` by
the same rule), and every entry is `NUC_N` or `NUC_S`, never `NUC_R`. -/
theorem c10_classifier_predict_shape (c : FittedDummyClassifier)
    (dts : List DepTree) (j : Nat) (hj : j < dts.length) :
    (dummy_classifier_predict c dts).length = dts.length ∧
    ((dummy_classifier_predict c dts).getD j []).length =
      (dts.getD j default).labels.length ∧
    (∀ k, k < (dts.getD j default).labels.length →
      ((dummy_classifier_predict c dts).getD j []).getD k NUC_R =
        (if (dts.getD j default).labels.getD k "" ∈ c.multinuc_lbls
         then NUC_N else NUC_S)) ∧
    (∀ k, k < (dts.getD j default).labels.length →
      ((dummy_classifier_predict c dts).getD j []).getD k NUC_R = NUC_N ∨
      ((dummy_classifier_predict c dts).getD j []).getD k NUC_R = NUC_S) := by
  have hmapj : (dummy_classifier_predict c dts).getD j [] =
      (dts.getD j default).labels.map
        (fun rel => if rel ∈ c.multinuc_lbls then NUC_N else NUC_S) := by
    unfold dummy_classifier_predict
    rw [List.getD_eq_getElem?_getD, List.getElem?_map]
    rw [List.getElem?_eq_getElem hj]
    simp [List.getD_eq_getElem?_getD, List.getElem?_eq_getElem hj]
  refine ⟨by simp [dummy_classifier_predict], ?_, ?_, ?_⟩
  · rw [hmapj]; simp
  · intro k hk
    rw [hmapj, List.getD_eq_getElem?_getD, List.getElem?_map,
      List.getElem?_eq_getElem hk]
    simp only [List.getD_eq_getElem?_getD] at hk ⊢
    rw [List.getElem?_eq_getElem hk]
    simp
  · intro k hk
    rw [hmapj, List.getD_eq_getElem?_getD, List.getElem?_map,
      List.getElem?_eq_getElem hk]
    by_cases hmem : (dts.getD j default).labels[k] ∈ c.multinuc_lbls <;>
      simp only [List.getD_eq_getElem?_getD] at hmem ⊢ <;>
      simp [hmem, NUC_N, NUC_S]

theorem c10_classifier_predict_shape_witness :
    0 < [exOneRoot].length ∧
    ((dummy_classifier_predict (FittedDummyClassifier.mk
        "unamb_else_most_frequent" ["joint", "same-unit", "textual"])
        [exOneRoot]).getD 0 []).length = exOneRoot.labels.length :=
  ⟨by decide,
   (c10_classifier_predict_shape
     (FittedDummyClassifier.mk "unamb_else_most_frequent"
       ["joint", "same-unit", "textual"])
     [exOneRoot] 0 (by decide)).2.1⟩

/-- C8 counterexample: constructing a `DummyNuclearityClassifier` with an
unknown strategy name succeeds — the classifier does not raise a
configuration error at construction time, contradicting the claim that
both components raise eagerly at construction. -/
theorem c8_classifier_init_accepts_unknown :
    dummy_classifier_init "no-such-strategy" =
      .ok (DummyNuclearityClassifier.mk "no-such-strategy") ∧
    ∀ e, dummy_classifier_init "no-such-strategy" ≠ .error e := by
  exact ⟨rfl, by intro e h; exact absurd h (by simp [dummy_classifier_init])⟩

/-- C8 amended: the ranker raises a configuration error eagerly at
construction time for every unknown strategy name; the classifier
accepts any strategy name at construction and raises the configuration
error at `fit` time for unknown names (so for neither component is the
check deferred to prediction time). -/
theorem c8_config_error_timing :
    (∀ s, s ∉ rankerStrategies → ∃ e, ranker_init s = .error e) ∧
    (∀ s, s ∈ rankerStrategies →
      ranker_init s = .ok (InsideOutAttachmentRanker.mk s)) ∧
    (∀ s, dummy_classifier_init s = .ok (DummyNuclearityClassifier.mk s)) ∧
    (∀ s freq_table, s ≠ "unamb_else_most_frequent" →
      s ≠ "most_frequent_by_rel" →
      ∃ e, dummy_classifier_fit (DummyNuclearityClassifier.mk s) freq_table =
        .error e) := by
  refine ⟨?_, ?_, ?_, ?_⟩
  · intro s hs
    exact ⟨_, by unfold ranker_init; rw [if_neg hs]⟩
  · intro s hs
    unfold ranker_init; rw [if_pos hs]
  · intro s; rfl
  · intro s freq_table h1 h2
    exact ⟨"Unknown strategy type.",
      by unfold dummy_classifier_fit; rw [if_pos ⟨h1, h2⟩]⟩

theorem c8_config_error_timing_witness :
    (∃ e, ranker_init "no-such-strategy" = .error e) ∧
    ranker_init "lllrrr" = .ok (InsideOutAttachmentRanker.mk "lllrrr") ∧
    dummy_classifier_init "no-such-strategy" =
      .ok (DummyNuclearityClassifier.mk "no-such-strategy") ∧
    (∃ e, dummy_classifier_fit
        (DummyNuclearityClassifier.mk "no-such-strategy") [] = .error e) :=
  ⟨c8_config_error_timing.1 "no-such-strategy" (by decide),
   c8_config_error_timing.2.1 "lllrrr" (by decide),
   c8_config_error_timing.2.2.1 "no-such-strategy",
   c8_config_error_timing.2.2.2 "no-such-strategy" [] (by decide) (by decide)⟩

/-- C5: when `connect_trees` succeeds, the textually-earlier side is the
left child and the later one the right child; the `src` side is wrapped
as Nucleus while the other side receives the supplied nuclearity; and
the result carries `src`'s anchor unit, the union edu-span, the merged
char-span, and the relation label of the folded edge. -/
theorem c5_connect_trees_shape (src tgt : TreeParts) (rel : String)
    (nuc : Nuc) (res : TreeParts)
    (hok : connect_trees src tgt rel nuc = .ok res) :
    res.edu = src.edu ∧
    res.edu_span = (min src.edu_span.1 tgt.edu_span.1,
                    max src.edu_span.2 tgt.edu_span.2) ∧
    res.span = src.span.merge tgt.span ∧
    res.rel = rel ∧
    (src.span.char_start < src.span.char_end →
      src.span.char_end ≤ tgt.span.char_start →
      res.kids = [parts_to_tree NUC_N src, parts_to_tree nuc tgt]) ∧
    (tgt.span.char_start < tgt.span.char_end →
      tgt.span.char_end ≤ src.span.char_start →
      res.kids = [parts_to_tree nuc tgt, parts_to_tree NUC_N src]) := by
  unfold connect_trees at hok
  by_cases hov : Span.overlapsb src.span tgt.span
  · rw [if_pos hov] at hok; exact absurd hok (by simp)
  · rw [if_neg hov] at hok
    simp only [Except.ok.injEq] at hok
    subst hok
    by_cases hle : Span.leb src.span tgt.span
    · rw [if_pos hle]
      refine ⟨rfl, ?_, rfl, rfl, fun _ _ => rfl, fun hne hgt => ?_⟩
      · simp [nodeOf_parts_to_tree]
      · exfalso
        unfold Span.leb at hle
        rw [decide_eq_true_iff] at hle
        omega
    · rw [if_neg hle]
      refine ⟨rfl, ?_, rfl, rfl, fun hne hgt => ?_, fun _ _ => rfl⟩
      · simp [nodeOf_parts_to_tree]
        omega
      · exfalso
        apply hle
        unfold Span.leb
        rw [decide_eq_true_iff]
        omega

/-- Anchor-side example input for the `connect_trees` witness. -/
def c5src : TreeParts := mk_leaf ⟨1, ⟨0, 5⟩⟩

/-- Target-side example input for the `connect_trees` witness. -/
def c5tgt : TreeParts := mk_leaf ⟨2, ⟨6, 9⟩⟩

/-- The combined parts produced by `connect_trees` on the example. -/
def c5res : TreeParts :=
  TreeParts.mk ⟨1, ⟨0, 5⟩⟩ (1, 2) ⟨0, 9⟩ "cause"
    [parts_to_tree NUC_N c5src, parts_to_tree NUC_S c5tgt]

theorem c5_connect_trees_shape_witness :
    c5res.edu = c5src.edu ∧
    c5res.kids = [parts_to_tree NUC_N c5src, parts_to_tree NUC_S c5tgt] := by
  have h := c5_connect_trees_shape c5src c5tgt "cause" NUC_S c5res (by rfl)
  exact ⟨h.1, h.2.2.2.2.1 (by decide) (by decide)⟩

/-- The dependency tree realising the worked example of the
`InsideOutAttachmentRanker` docstring: head node 1 with the target list
`l3 r1 r3 l2 l1 r2` (nodes 2..7 in array order, character spans placing
them around the head as named). -/
def exDocstringTree : DepTree :=
  DepTree.mk
    [-1, 0, 1, 1, 1, 1, 1, 1]
    ["", "root", "l3", "r1", "r3", "l2", "l1", "r2"]
    [NUC_S, NUC_S, NUC_S, NUC_S, NUC_S, NUC_S, NUC_S, NUC_S]
    [⟨0, ⟨0, 0⟩⟩, ⟨1, ⟨30, 35⟩⟩, ⟨2, ⟨0, 5⟩⟩, ⟨3, ⟨40, 45⟩⟩,
     ⟨4, ⟨60, 65⟩⟩, ⟨5, ⟨10, 15⟩⟩, ⟨6, ⟨20, 25⟩⟩, ⟨7, ⟨50, 55⟩⟩]
    [0, 1, 2, 3, 4, 5, 6, 7] none [0, 0, 0, 0, 0, 0, 0, 0]

/-- C4: on the very target configuration used as the worked example in
the ranker's own docstring (slots `L R R L L R`, expected fill
`l1 r1 r2 l2 l3 r3`), the `id` strategy raises `pop from empty list`
instead of producing the documented ranking, so the round trip the
claim describes never takes place. -/
theorem c4_id_strategy_crashes_on_docstring_example :
    predictOne "id" exDocstringTree = .error "pop from empty list" := by rfl

/-- Destructuring of a successful `walk` call at positive fuel: the
inner fold succeeded and the result is either the folded subtree (root
case) or its connection to the ancestor. -/
lemma walk_ok_cases (d : DepTree) (fuel : Nat) (anc : Option TreeParts)
    (i : Nat) (parts : TreeParts)
    (hok : walk d (fuel + 1) anc i = .ok parts) :
    ∃ src, (d.deps i).foldlM (fun s t => walk d fuel (some s) t)
        (mk_leaf (d.edus.getD i default)) = .ok src ∧
      ((anc = none ∧ parts = src) ∨
       (∃ a, anc = some a ∧
         connect_trees a src (d.labels.getD i "") (d.nucs.getD i NUC_S) =
           .ok parts)) := by
  unfold walk at hok
  cases hfold : (d.deps i).foldlM (fun s t => walk d fuel (some s) t)
      (mk_leaf (d.edus.getD i default)) with
  | error e =>
    rw [hfold] at hok
    simp only [Bind.bind, Except.bind] at hok
    exact absurd hok (by simp)
  | ok src =>
    rw [hfold] at hok
    simp only [Bind.bind, Except.bind] at hok
    refine ⟨src, rfl, ?_⟩
    cases anc with
    | none =>
      simp only [pure, Except.pure, Except.ok.injEq] at hok
      exact Or.inl ⟨rfl, hok.symm⟩
    | some a => exact Or.inr ⟨a, rfl, hok⟩

/-- The C9 invariant on partial trees: all leaves of the trees collected
so far carry relation `leaf`, and a childless partial tree itself still
carries relation `leaf`. -/
def partsRels (p : TreeParts) : Bool := relsT (parts_to_tree NUC_N p)

lemma partsRels_mk_leaf (e : EDU) : partsRels (mk_leaf e) = true := by
  simp [partsRels, parts_to_tree, mk_leaf, relsT]

lemma relsT_as_partsRels (nuc : Nuc) (p : TreeParts) :
    relsT (parts_to_tree nuc p) = partsRels p :=
  relsT_parts_to_tree nuc NUC_N p

/-- Shape of a successful `connect_trees` call, spelt without reference
to text order: result span, non-overlap, the two possible child lists,
and the carried anchor. -/
lemma connect_ok_shape (src tgt : TreeParts) (rel : String) (nuc : Nuc)
    (res : TreeParts) (hok : connect_trees src tgt rel nuc = .ok res) :
    res.span = src.span.merge tgt.span ∧
    Span.overlapsb src.span tgt.span = false ∧
    (res.kids = [parts_to_tree NUC_N src, parts_to_tree nuc tgt] ∨
     res.kids = [parts_to_tree nuc tgt, parts_to_tree NUC_N src]) ∧
    res.edu = src.edu := by
  unfold connect_trees at hok
  by_cases hov : Span.overlapsb src.span tgt.span
  · rw [if_pos hov] at hok; exact absurd hok (by simp)
  · rw [if_neg hov] at hok
    simp only [Except.ok.injEq] at hok
    subst hok
    by_cases hle : Span.leb src.span tgt.span
    · rw [if_pos hle]
      exact ⟨rfl, by simp [hov], Or.inl rfl, rfl⟩
    · rw [if_neg hle]
      exact ⟨rfl, by simp [hov], Or.inr rfl, rfl⟩

lemma partsRels_two (p : TreeParts) (l r : SimpleRSTTree)
    (hk : p.kids = [l, r]) : partsRels p = (relsT l && relsT r) := by
  unfold partsRels parts_to_tree
  rw [hk]
  simp [relsT, relsL]

lemma connect_partsRels (src tgt : TreeParts) (rel : String) (nuc : Nuc)
    (res : TreeParts) (hok : connect_trees src tgt rel nuc = .ok res)
    (hsrc : partsRels src = true) (htgt : partsRels tgt = true) :
    partsRels res = true := by
  rcases (connect_ok_shape src tgt rel nuc res hok).2.2.1 with hkids | hkids <;>
    rw [partsRels_two res _ _ hkids, relsT_as_partsRels, relsT_as_partsRels,
      hsrc, htgt] <;> rfl

lemma walk_partsRels (d : DepTree) :
    ∀ (fuel : Nat) (anc : Option TreeParts) (i : Nat) (parts : TreeParts),
      walk d fuel anc i = .ok parts →
      (∀ a, anc = some a → partsRels a = true) → partsRels parts = true := by
  intro fuel
  induction fuel with
  | zero => intro anc i parts hok _; exact absurd hok (by simp [walk])
  | succ fuel ih =>
    intro anc i parts hok hanc
    obtain ⟨src, hfold, hcase⟩ := walk_ok_cases d fuel anc i parts hok
    have hfoldlem : ∀ (ts : List Nat) (s0 s1 : TreeParts),
        ts.foldlM (fun s t => walk d fuel (some s) t) s0 = .ok s1 →
        partsRels s0 = true → partsRels s1 = true := by
      intro ts
      induction ts with
      | nil =>
        intro s0 s1 h hs0
        simp only [List.foldlM_nil, pure, Except.pure, Except.ok.injEq] at h
        rw [← h]; exact hs0
      | cons t ts iht =>
        intro s0 s1 h hs0
        rw [List.foldlM_cons] at h
        cases hw : walk d fuel (some s0) t with
        | error e =>
          rw [hw] at h
          simp only [Bind.bind, Except.bind] at h
          exact absurd h (by simp)
        | ok s' =>
          rw [hw] at h
          simp only [Bind.bind, Except.bind] at h
          exact iht s' s1 h
            (ih (some s0) t s' hw (fun a ha => by cases ha; exact hs0))
    have hsrc : partsRels src = true :=
      hfoldlem _ _ _ hfold (partsRels_mk_leaf _)
    rcases hcase with ⟨_, hps⟩ | ⟨a, hancs, hconn⟩
    · rw [hps]; exact hsrc
    · exact connect_partsRels a src _ _ parts hconn (hanc a hancs) hsrc

/-- C9: every leaf of a tree returned by `deptree_to_simple_rst_tree`
carries the relation label `leaf`; and when the unique real root has no
dependents the output is a single-leaf tree with nuclearity `NUC_R`,
relation `leaf` and eduSpan `(r, r)`. -/
theorem c9_leaf_relations :
    (∀ (d : DepTree) (t : SimpleRSTTree),
      deptree_to_simple_rst_tree d = .ok t → relsT t = true) ∧
    (∀ (d : DepTree) (r : Nat), d.real_roots_idx = [r] → d.deps r = [] →
      deptree_to_simple_rst_tree d = .ok (SimpleRSTTree.mk
        (RNode.mk NUC_R ((eduAt d r).num, (eduAt d r).num)
          (eduAt d r).span "leaf")
        [] (some (eduAt d r)))) := by
  constructor
  · intro d t hok
    unfold deptree_to_simple_rst_tree at hok
    rcases hl : d.real_roots_idx with _ | ⟨r, _ | ⟨s, rest⟩⟩ <;>
      rw [hl] at hok <;> dsimp only at hok
    · simp at hok
    · cases hw : walk d d.heads.length none r with
      | error e => rw [hw] at hok; exact absurd hok (by simp [Functor.map, Except.map])
      | ok rparts =>
        rw [hw] at hok
        simp only [Functor.map, Except.map, Except.ok.injEq] at hok
        rw [← hok, relsT_as_partsRels]
        exact walk_partsRels d _ none r rparts hw (by intro a ha; cases ha)
    · simp at hok
  · intro d r hroot hdeps
    have hrmem : r ∈ d.real_roots_idx := by rw [hroot]; exact List.mem_singleton.2 rfl
    have hrlt : r < d.heads.length := by
      have := List.mem_filter.1 hrmem
      exact List.mem_range.1 this.1
    obtain ⟨f, hf⟩ : ∃ f, d.heads.length = f + 1 := ⟨d.heads.length - 1, by omega⟩
    have hwalk : walk d (f + 1) none r = .ok (mk_leaf (eduAt d r)) := by
      unfold walk
      rw [hdeps]
      rfl
    unfold deptree_to_simple_rst_tree
    rw [hroot]
    dsimp only
    rw [hf, hwalk]
    rfl

theorem c9_leaf_relations_witness :
    relsT (SimpleRSTTree.mk (RNode.mk NUC_R (1, 1) ⟨0, 5⟩ "leaf")
      [] (some ⟨1, ⟨0, 5⟩⟩)) = true ∧
    deptree_to_simple_rst_tree exOneRoot = .ok (SimpleRSTTree.mk
      (RNode.mk NUC_R ((eduAt exOneRoot 1).num, (eduAt exOneRoot 1).num)
        (eduAt exOneRoot 1).span "leaf")
      [] (some (eduAt exOneRoot 1))) :=
  ⟨c9_leaf_relations.1 exOneRoot _ (by rfl),
   c9_leaf_relations.2 exOneRoot 1 (by rfl) (by rfl)⟩

/-- Generic preservation along `walk`: a property of partial trees that
holds at every leaf of an admissible node and is preserved by
`connect_trees` holds for every successful `walk` result, provided
admissibility is closed under `deps`. -/
lemma walk_preserves (d : DepTree) (P : TreeParts → Prop) (A : Nat → Prop)
    (hleaf : ∀ i, A i → P (mk_leaf (d.edus.getD i default)))
    (hdeps : ∀ i j, A i → j ∈ d.deps i → A j)
    (hconn : ∀ src tgt rel nuc res, connect_trees src tgt rel nuc = .ok res →
      P src → P tgt → P res) :
    ∀ (fuel : Nat) (anc : Option TreeParts) (i : Nat) (parts : TreeParts),
      A i → walk d fuel anc i = .ok parts →
      (∀ a, anc = some a → P a) → P parts := by
  intro fuel
  induction fuel with
  | zero => intro anc i parts _ hok _; exact absurd hok (by simp [walk])
  | succ fuel ih =>
    intro anc i parts hA hok hanc
    obtain ⟨src, hfold, hcase⟩ := walk_ok_cases d fuel anc i parts hok
    have hfoldlem : ∀ (ts : List Nat), (∀ j ∈ ts, A j) → ∀ (s0 s1 : TreeParts),
        ts.foldlM (fun s t => walk d fuel (some s) t) s0 = .ok s1 →
        P s0 → P s1 := by
      intro ts
      induction ts with
      | nil =>
        intro _ s0 s1 h hs0
        simp only [List.foldlM_nil, pure, Except.pure, Except.ok.injEq] at h
        rw [← h]; exact hs0
      | cons t ts iht =>
        intro hts s0 s1 h hs0
        rw [List.foldlM_cons] at h
        cases hw : walk d fuel (some s0) t with
        | error e =>
          rw [hw] at h
          simp only [Bind.bind, Except.bind] at h
          exact absurd h (by simp)
        | ok s' =>
          rw [hw] at h
          simp only [Bind.bind, Except.bind] at h
          refine iht (fun j hj => hts j (List.mem_cons_of_mem t hj)) s' s1 h ?_
          exact ih (some s0) t s' (hts t (List.mem_cons_self t ts)) hw
            (fun a ha => by cases ha; exact hs0)
    have hsrc : P src :=
      hfoldlem _ (fun j hj => hdeps i j hA hj) _ _ hfold (hleaf i hA)
    rcases hcase with ⟨_, hps⟩ | ⟨a, hancs, hconn'⟩
    · rw [hps]; exact hsrc
    · exact hconn a src _ _ parts hconn' (hanc a hancs) hsrc

/-- The C3 invariant on partial trees, phrased through the tree
`parts_to_tree` would produce. -/
def partsCheck (p : TreeParts) : Bool := checkT (parts_to_tree NUC_N p)

lemma checkT_as_partsCheck (nuc : Nuc) (p : TreeParts) :
    checkT (parts_to_tree nuc p) = partsCheck p :=
  checkT_parts_to_tree nuc NUC_N p

lemma partsCheck_mk_leaf (e : EDU) : partsCheck (mk_leaf e) = true := by
  simp [partsCheck, parts_to_tree, mk_leaf, checkT]

lemma partsCheck_two (p : TreeParts) (l r : SimpleRSTTree)
    (hk : p.kids = [l, r]) :
    partsCheck p = (decide (p.span = l.nodeOf.span.merge r.nodeOf.span) &&
      !(Span.overlapsb l.nodeOf.span r.nodeOf.span) && checkT l && checkT r) := by
  unfold partsCheck parts_to_tree
  rw [hk]
  simp [checkT]

lemma connect_partsCheck (src tgt : TreeParts) (rel : String) (nuc : Nuc)
    (res : TreeParts) (hok : connect_trees src tgt rel nuc = .ok res)
    (hsrc : partsCheck src = true) (htgt : partsCheck tgt = true) :
    partsCheck res = true := by
  obtain ⟨hspan, hov, hkids, _⟩ := connect_ok_shape src tgt rel nuc res hok
  rcases hkids with hkids | hkids <;>
    rw [partsCheck_two res _ _ hkids] <;>
    simp only [nodeOf_parts_to_tree, checkT_as_partsCheck, hsrc, htgt] <;>
    simp only [Bool.and_true, Bool.and_eq_true, decide_eq_true_eq,
      Bool.not_eq_true'] <;>
    constructor
  · exact hspan
  · exact hov
  · rw [hspan]; exact Span.merge_comm src.span tgt.span
  · rw [Span.overlapsb_comm]; exact hov

/-- C3: every internal node of a returned constituency tree has exactly
two children, its charSpan equals the merge of its children's charSpans,
and the children's charSpans do not overlap, recursively throughout the
tree (the decidable check `checkT`). -/
theorem c3_internal_node_span_invariant (d : DepTree) (t : SimpleRSTTree)
    (hok : deptree_to_simple_rst_tree d = .ok t) : checkT t = true := by
  unfold deptree_to_simple_rst_tree at hok
  rcases hl : d.real_roots_idx with _ | ⟨r, _ | ⟨s, rest⟩⟩ <;>
    rw [hl] at hok <;> dsimp only at hok
  · simp at hok
  · cases hw : walk d d.heads.length none r with
    | error e =>
      rw [hw] at hok; exact absurd hok (by simp [Functor.map, Except.map])
    | ok rparts =>
      rw [hw] at hok
      simp only [Functor.map, Except.map, Except.ok.injEq] at hok
      rw [← hok, checkT_as_partsCheck]
      exact walk_preserves d (fun p => partsCheck p = true) (fun _ => True)
        (fun i _ => partsCheck_mk_leaf _) (fun _ _ _ _ => trivial)
        (fun src tgt rel nuc res h hs ht => connect_partsCheck _ _ _ _ _ h hs ht)
        d.heads.length none r rparts trivial hw (by intro a ha; cases ha)
  · simp at hok

/-- Example conversion with two combined subtrees, for the C3 witness. -/
def exThreeNode : DepTree :=
  DepTree.mk [-1, 0, 1] ["", "root", "cause"] [NUC_S, NUC_S, NUC_S]
    [⟨0, ⟨0, 0⟩⟩, ⟨1, ⟨0, 5⟩⟩, ⟨2, ⟨6, 9⟩⟩] [0, 1, 2] none [0, 0, 0]

theorem c3_internal_node_span_invariant_witness :
    ∃ t, deptree_to_simple_rst_tree exThreeNode = .ok t ∧ checkT t = true :=
  ⟨_, rfl, c3_internal_node_span_invariant exThreeNode _ rfl⟩

lemma popLast_spec :
    ∀ (l : List Int) (x : Int) (l' : List Int),
      popLast l = .ok (x, l') → l.Perm (x :: l') := by
  intro l
  induction l with
  | nil => intro x l' h; exact absurd h (by simp [popLast])
  | cons a rest ih =>
    intro x l' h
    cases rest with
    | nil =>
      simp only [popLast, Except.ok.injEq, Prod.mk.injEq] at h
      rw [← h.1, ← h.2]
    | cons b rest2 =>
      unfold popLast at h
      cases hp : popLast (b :: rest2) with
      | error e =>
        rw [hp] at h
        simp only [Bind.bind, Except.bind] at h
        exact absurd h (by simp)
      | ok p =>
        rw [hp] at h
        simp only [Bind.bind, Except.bind, Except.ok.injEq, Prod.mk.injEq] at h
        obtain ⟨hx, hl'⟩ := h
        have hrest := ih p.1 p.2 hp
        rw [← hx, ← hl']
        exact List.Perm.trans (List.Perm.cons a hrest)
          (List.Perm.swap p.1 a p.2)

lemma idFill_perm :
    ∀ (ts : List Nat) (left right res : List Int),
      idFill ts left right = .ok res →
      ts.length = left.length + right.length →
      res.Perm (left ++ right) := by
  intro ts
  induction ts with
  | nil =>
    intro left right res h hlen
    simp only [idFill, Except.ok.injEq] at h
    rw [← h]
    rw [List.length_nil] at hlen
    have hl : left = [] := List.length_eq_zero.1 (by omega)
    have hr : right = [] := List.length_eq_zero.1 (by omega)
    rw [hl, hr]
    rfl
  | cons t ts ih =>
    intro left right res h hlen
    unfold idFill at h
    by_cases hmem : (t : Int) ∈ left
    · rw [if_pos hmem] at h
      cases hp : popLast left with
      | error e =>
        rw [hp] at h
        simp only [Bind.bind, Except.bind] at h
        exact absurd h (by simp)
      | ok p =>
        rw [hp] at h
        simp only [Bind.bind, Except.bind] at h
        cases hrest : idFill ts p.2 right with
        | error e =>
          rw [hrest] at h
          exact absurd h (by simp)
        | ok rest =>
          rw [hrest] at h
          simp only [Except.ok.injEq] at h
          have hpl := popLast_spec left p.1 p.2 hp
          have hlen2 : ts.length = p.2.length + right.length := by
            have := hpl.length_eq
            simp only [List.length_cons] at this
            simp only [List.length_cons] at hlen
            omega
          have hr := ih p.2 right rest hrest hlen2
          rw [← h]
          exact List.Perm.trans (List.Perm.cons p.1 hr)
            (List.Perm.append_right right hpl.symm)
    · rw [if_neg hmem] at h
      cases hp : popLast right with
      | error e =>
        rw [hp] at h
        simp only [Bind.bind, Except.bind] at h
        exact absurd h (by simp)
      | ok p =>
        rw [hp] at h
        simp only [Bind.bind, Except.bind] at h
        cases hrest : idFill ts left p.2 with
        | error e =>
          rw [hrest] at h
          exact absurd h (by simp)
        | ok rest =>
          rw [hrest] at h
          simp only [Except.ok.injEq] at h
          have hpr := popLast_spec right p.1 p.2 hp
          have hlen2 : ts.length = left.length + p.2.length := by
            have := hpr.length_eq
            simp only [List.length_cons] at this
            simp only [List.length_cons] at hlen
            omega
          have hr := ih left p.2 rest hrest hlen2
          rw [← h]
          refine List.Perm.trans (List.Perm.cons p.1 hr) ?_
          refine List.Perm.trans (List.perm_middle).symm ?_
          exact List.Perm.append_left left hpr.symm

lemma lllFill_perm :
    ∀ (n : Nat) (left right res : List Int),
      lllFill n left right = .ok res →
      n = left.length + right.length →
      res.Perm (left ++ right) := by
  intro n
  induction n with
  | zero =>
    intro left right res h hlen
    simp only [lllFill, Except.ok.injEq] at h
    rw [← h]
    have hl : left = [] := List.length_eq_zero.1 (by omega)
    have hr : right = [] := List.length_eq_zero.1 (by omega)
    rw [hl, hr]
    rfl
  | succ n ih =>
    intro left right res h hlen
    unfold lllFill at h
    by_cases hne : left ≠ []
    · rw [if_pos hne] at h
      cases hp : popLast left with
      | error e =>
        rw [hp] at h
        simp only [Bind.bind, Except.bind] at h
        exact absurd h (by simp)
      | ok p =>
        rw [hp] at h
        simp only [Bind.bind, Except.bind] at h
        cases hrest : lllFill n p.2 right with
        | error e => rw [hrest] at h; exact absurd h (by simp)
        | ok rest =>
          rw [hrest] at h
          simp only [Except.ok.injEq] at h
          have hpl := popLast_spec left p.1 p.2 hp
          have hlen2 : n = p.2.length + right.length := by
            have := hpl.length_eq
            simp only [List.length_cons] at this
            omega
          rw [← h]
          exact List.Perm.trans (List.Perm.cons p.1 (ih p.2 right rest hrest hlen2))
            (List.Perm.append_right right hpl.symm)
    · rw [if_neg hne] at h
      cases hp : popLast right with
      | error e =>
        rw [hp] at h
        simp only [Bind.bind, Except.bind] at h
        exact absurd h (by simp)
      | ok p =>
        rw [hp] at h
        simp only [Bind.bind, Except.bind] at h
        cases hrest : lllFill n left p.2 with
        | error e => rw [hrest] at h; exact absurd h (by simp)
        | ok rest =>
          rw [hrest] at h
          simp only [Except.ok.injEq] at h
          have hpr := popLast_spec right p.1 p.2 hp
          have hlen2 : n = left.length + p.2.length := by
            have := hpr.length_eq
            simp only [List.length_cons] at this
            omega
          rw [← h]
          refine List.Perm.trans
            (List.Perm.cons p.1 (ih left p.2 rest hrest hlen2)) ?_
          refine List.Perm.trans (List.perm_middle).symm ?_
          exact List.Perm.append_left left hpr.symm

lemma rrrFill_perm :
    ∀ (n : Nat) (left right res : List Int),
      rrrFill n left right = .ok res →
      n = left.length + right.length →
      res.Perm (left ++ right) := by
  intro n
  induction n with
  | zero =>
    intro left right res h hlen
    simp only [rrrFill, Except.ok.injEq] at h
    rw [← h]
    have hl : left = [] := List.length_eq_zero.1 (by omega)
    have hr : right = [] := List.length_eq_zero.1 (by omega)
    rw [hl, hr]
    rfl
  | succ n ih =>
    intro left right res h hlen
    unfold rrrFill at h
    by_cases hne : right ≠ []
    · rw [if_pos hne] at h
      cases hp : popLast right with
      | error e =>
        rw [hp] at h
        simp only [Bind.bind, Except.bind] at h
        exact absurd h (by simp)
      | ok p =>
        rw [hp] at h
        simp only [Bind.bind, Except.bind] at h
        cases hrest : rrrFill n left p.2 with
        | error e => rw [hrest] at h; exact absurd h (by simp)
        | ok rest =>
          rw [hrest] at h
          simp only [Except.ok.injEq] at h
          have hpr := popLast_spec right p.1 p.2 hp
          have hlen2 : n = left.length + p.2.length := by
            have := hpr.length_eq
            simp only [List.length_cons] at this
            omega
          rw [← h]
          refine List.Perm.trans
            (List.Perm.cons p.1 (ih left p.2 rest hrest hlen2)) ?_
          refine List.Perm.trans (List.perm_middle).symm ?_
          exact List.Perm.append_left left hpr.symm
    · rw [if_neg hne] at h
      cases hp : popLast left with
      | error e =>
        rw [hp] at h
        simp only [Bind.bind, Except.bind] at h
        exact absurd h (by simp)
      | ok p =>
        rw [hp] at h
        simp only [Bind.bind, Except.bind] at h
        cases hrest : rrrFill n p.2 right with
        | error e => rw [hrest] at h; exact absurd h (by simp)
        | ok rest =>
          rw [hrest] at h
          simp only [Except.ok.injEq] at h
          have hpl := popLast_spec left p.1 p.2 hp
          have hlen2 : n = p.2.length + right.length := by
            have := hpl.length_eq
            simp only [List.length_cons] at this
            omega
          rw [← h]
          exact List.Perm.trans
            (List.Perm.cons p.1 (ih p.2 right rest hrest hlen2))
            (List.Perm.append_right right hpl.symm)

lemma izipFlat_perm : ∀ (xs ys : List Int), (izipFlat xs ys).Perm (xs ++ ys) := by
  intro xs
  induction xs with
  | nil => intro ys; simp [izipFlat]
  | cons x xs ih =>
    intro ys
    cases ys with
    | nil => simp [izipFlat]
    | cons y ys =>
      show (x :: y :: izipFlat xs ys).Perm (x :: xs ++ y :: ys)
      refine List.Perm.cons x ?_
      refine List.Perm.trans (List.Perm.cons y (ih ys)) ?_
      exact (List.perm_middle).symm

lemma indexOf_split {α : Type} [DecidableEq α] (l : List α) (a : α)
    (h : a ∈ l) :
    l = l.take (l.indexOf a) ++ a :: l.drop (l.indexOf a + 1) := by
  have hlt : l.indexOf a < l.length := List.indexOf_lt_length.2 h
  conv_lhs => rw [← List.take_append_drop (l.indexOf a) l]
  rw [List.drop_eq_getElem_cons hlt, List.getElem_indexOf hlt]

set_option maxHeartbeats 2000000 in
/-- Whatever the strategy, a successful per-head ordering is a
permutation of that head's target list. -/
lemma headOrder_perm (strategy : String) (d : DepTree) (head : Int)
    (res : List Int) (hok : headOrder strategy d head = .ok res) :
    res.Perm ((headTargets d head).map Int.ofNat) := by
  have hsn : (sortedNodes d head).Perm
      (head :: (headTargets d head).map Int.ofNat) :=
    List.perm_insertionSort _ _
  have hmem : head ∈ sortedNodes d head :=
    hsn.mem_iff.2 (List.mem_cons_self _ _)
  set sn := sortedNodes d head with hsndef
  set c := sn.indexOf head with hcdef
  have hsplit : sn = sn.take c ++ head :: sn.drop (c + 1) :=
    indexOf_split sn head hmem
  have hlr : ((sn.take c) ++ ((sn.drop (c + 1)).reverse)).Perm
      ((headTargets d head).map Int.ofNat) := by
    have h1 : ((sn.take c) ++ ((sn.drop (c + 1)).reverse)).Perm
        (sn.take c ++ sn.drop (c + 1)) :=
      List.Perm.append_left _ (List.reverse_perm _)
    have h2 : (head :: (sn.take c ++ sn.drop (c + 1))).Perm
        (head :: (headTargets d head).map Int.ofNat) := by
      refine List.Perm.trans (List.perm_middle).symm ?_
      rw [← hsplit]
      exact hsn
    exact List.Perm.trans h1 (List.Perm.cons_inv h2)
  have hlenlr : (sn.take c).length + ((sn.drop (c + 1)).reverse).length =
      (headTargets d head).length := by
    have := hlr.length_eq
    simp only [List.length_append, List.length_map] at this
    omega
  simp only [headOrder] at hok
  rw [← hsndef, ← hcdef] at hok
  split_ifs at hok with h1 h2 h3 h4 h5 h6 h7 h8 h9 h10
  · exact List.Perm.trans (idFill_perm _ _ _ _ hok (by omega)) hlr
  · exact List.Perm.trans (lllFill_perm _ _ _ _ hok (by omega)) hlr
  · exact List.Perm.trans (rrrFill_perm _ _ _ _ hok (by omega)) hlr
  · simp only [Except.ok.injEq] at hok
    rw [← hok]
    refine List.Perm.trans (izipFlat_perm _ _) ?_
    refine List.Perm.trans ?_ hlr
    exact List.Perm.append (List.reverse_perm _) (List.reverse_perm _)
  · simp only [Except.ok.injEq] at hok
    rw [← hok]
    refine List.Perm.trans (izipFlat_perm _ _) ?_
    refine List.Perm.trans (List.perm_append_comm) ?_
    refine List.Perm.trans ?_ hlr
    exact List.Perm.append (List.reverse_perm _) (List.reverse_perm _)
  · simp only [Except.ok.injEq] at hok
    rw [← hok]
    exact List.perm_insertionSort _ _
  · simp only [Except.ok.injEq] at hok
    rw [← hok]
    exact List.perm_insertionSort _ _
  · cases hsent : d.sent_idx with
    | none => rw [hsent] at hok; exact absurd hok (by simp)
    | some sids =>
      rw [hsent] at hok
      dsimp only at hok
      simp only [Except.ok.injEq] at hok
      rw [← hok]; exact List.perm_insertionSort _ _
  · cases hsent : d.sent_idx with
    | none => rw [hsent] at hok; exact absurd hok (by simp)
    | some sids =>
      rw [hsent] at hok
      dsimp only at hok
      simp only [Except.ok.injEq] at hok
      rw [← hok]; exact List.perm_insertionSort _ _
  · cases hsent : d.sent_idx with
    | none => rw [hsent] at hok; exact absurd hok (by simp)
    | some sids =>
      rw [hsent] at hok
      dsimp only at hok
      simp only [Except.ok.injEq] at hok
      rw [← hok]; exact List.perm_insertionSort _ _
  · cases hsent : d.sent_idx with
    | none => rw [hsent] at hok; exact absurd hok (by simp)
    | some sids =>
      rw [hsent] at hok
      dsimp only at hok
      exact absurd hok (by simp)

lemma headTargets_mem (d : DepTree) (head : Int) (j : Nat) :
    j ∈ headTargets d head ↔
      (j < d.heads.length ∧ d.heads.getD j (-1) = head) := by
  unfold headTargets
  rw [List.mem_filter, List.mem_range]
  simp

lemma headTargets_nodup (d : DepTree) (head : Int) :
    (headTargets d head).Nodup :=
  List.Nodup.filter _ (List.nodup_range _)

lemma headOrder_nodup (strategy : String) (d : DepTree) (head : Int)
    (res : List Int) (hok : headOrder strategy d head = .ok res) :
    res.Nodup := by
  refine (List.Perm.nodup_iff (headOrder_perm strategy d head res hok)).2 ?_
  exact List.Nodup.map (fun a b h => Int.ofNat.inj h)
    (headTargets_nodup d head)

lemma headOrder_nonneg (strategy : String) (d : DepTree) (head : Int)
    (res : List Int) (hok : headOrder strategy d head = .ok res) :
    ∀ x ∈ res, 0 ≤ x := by
  intro x hx
  have := (headOrder_perm strategy d head res hok).subset hx
  obtain ⟨j, _, hj⟩ := List.mem_map.1 this
  exact hj ▸ Int.ofNat_nonneg j

lemma setFold_untouched :
    ∀ (ps : List (Nat × Int)) (ranks : List Nat) (j : Nat),
      (∀ p ∈ ps, p.2.toNat ≠ j) →
      (ps.foldl (fun r p => r.set p.2.toNat p.1) ranks).getD j 0 =
        ranks.getD j 0 := by
  intro ps
  induction ps with
  | nil => intro ranks j _; rfl
  | cons q qs ih =>
    intro ranks j hne
    rw [List.foldl_cons]
    rw [ih _ j (fun p hp => hne p (List.mem_cons_of_mem q hp))]
    rw [List.getD_eq_getElem?_getD, List.getD_eq_getElem?_getD]
    rw [List.getElem?_set_ne (hne q (List.mem_cons_self q qs))]

lemma setFold_length :
    ∀ (ps : List (Nat × Int)) (ranks : List Nat),
      (ps.foldl (fun r p => r.set p.2.toNat p.1) ranks).length =
        ranks.length := by
  intro ps
  induction ps with
  | nil => intro ranks; rfl
  | cons q qs ih =>
    intro ranks
    rw [List.foldl_cons, ih, List.length_set]

lemma setFold_value :
    ∀ (ps : List (Nat × Int)) (ranks : List Nat) (k : Nat) (x : Int),
      (ps.map (fun p => p.2.toNat)).Nodup →
      (k, x) ∈ ps →
      x.toNat < ranks.length →
      (ps.foldl (fun r p => r.set p.2.toNat p.1) ranks).getD x.toNat 0 = k := by
  intro ps
  induction ps with
  | nil => intro ranks k x _ hmem _; exact absurd hmem (by simp)
  | cons q qs ih =>
    intro ranks k x hnd hmem hlt
    rw [List.map_cons, List.nodup_cons] at hnd
    rw [List.foldl_cons]
    rcases List.mem_cons.1 hmem with heq | htail
    · subst heq
      rw [setFold_untouched qs _ x.toNat
        (fun p hp hcontra =>
          hnd.1 (hcontra ▸ List.mem_map_of_mem (fun p => p.2.toNat) hp))]
      rw [List.getD_eq_getElem?_getD, List.getElem?_set_self hlt]
      rfl
    · exact ih _ k x hnd.2 htail (by rw [List.length_set]; exact hlt)

lemma applyRanks_length (ranks : List Nat) (res : List Int) :
    (applyRanks ranks res).length = ranks.length :=
  setFold_length _ _

lemma applyRanks_untouched (ranks : List Nat) (res : List Int)
    (hnn : ∀ x ∈ res, 0 ≤ x) (j : Nat) (hj : (j : Int) ∉ res) :
    (applyRanks ranks res).getD j 0 = ranks.getD j 0 := by
  refine setFold_untouched res.enum ranks j (fun p hp hcontra => ?_)
  have hsnd : p.2 ∈ res := by
    have := List.mem_map_of_mem Prod.snd hp
    rw [List.enum_map_snd] at this
    exact this
  have h0 : 0 ≤ p.2 := hnn p.2 hsnd
  have : p.2 = (j : Int) := by omega
  exact hj (this ▸ hsnd)

lemma applyRanks_at (ranks : List Nat) (res : List Int) (hnd : res.Nodup)
    (hnn : ∀ x ∈ res, 0 ≤ x) (k : Nat) (hk : k < res.length)
    (hlt : (res[k]).toNat < ranks.length) :
    (applyRanks ranks res).getD (res[k]).toNat 0 = k := by
  refine setFold_value res.enum ranks k res[k] ?_ ?_ hlt
  · have hmapeq : res.enum.map (fun p => p.2.toNat) = res.map Int.toNat := by
      have : (fun p : Nat × Int => p.2.toNat) = Int.toNat ∘ Prod.snd := rfl
      rw [this, ← List.map_map, List.enum_map_snd]
    rw [hmapeq]
    refine List.Nodup.map_on ?_ hnd
    intro x hx y hy hxy
    have h0x := hnn x hx
    have h0y := hnn y hy
    omega
  · have hklt : k < res.enum.length := by rw [List.enum_length]; exact hk
    have := List.getElem_enum res k hklt
    rw [← this]
    exact List.getElem_mem hklt

lemma res_mem_targets (strategy : String) (d : DepTree) (head : Int)
    (res : List Int) (hok : headOrder strategy d head = .ok res)
    (x : Int) (hx : x ∈ res) :
    ∃ j : Nat, x = (j : Int) ∧ j < d.heads.length ∧
      d.heads.getD j (-1) = head := by
  have := (headOrder_perm strategy d head res hok).subset hx
  obtain ⟨j, hjmem, hj⟩ := List.mem_map.1 this
  obtain ⟨hjlt, hjhd⟩ := (headTargets_mem d head j).1 hjmem
  exact ⟨j, hj.symm, hjlt, hjhd⟩

lemma predictFold_spec (strategy : String) (d : DepTree) :
    ∀ (hs : List Int) (ranks0 final : List Nat),
      hs.foldlM (fun ranks head =>
        (applyRanks ranks) <$> headOrder strategy d head) ranks0 = .ok final →
      ranks0.length = d.heads.length →
      hs.Nodup →
      final.length = d.heads.length ∧
      (∀ j : Nat, d.heads.getD j (-1) ∉ hs →
        final.getD j 0 = ranks0.getD j 0) ∧
      (∀ head ∈ hs, ∀ res, headOrder strategy d head = .ok res →
        ∀ k, k < res.length → final.getD (res[k]!).toNat 0 = k) := by
  intro hs
  induction hs with
  | nil =>
    intro ranks0 final h hlen _
    simp only [List.foldlM_nil, pure, Except.pure, Except.ok.injEq] at h
    subst h
    exact ⟨hlen, fun j _ => rfl, fun head hmem => absurd hmem (by simp)⟩
  | cons h hs ih =>
    intro ranks0 final hfold hlen hnd
    rw [List.foldlM_cons] at hfold
    cases hho : headOrder strategy d h with
    | error e =>
      rw [hho] at hfold
      simp only [Functor.map, Except.map, Bind.bind, Except.bind] at hfold
      exact absurd hfold (by simp)
    | ok res =>
      rw [hho] at hfold
      simp only [Functor.map, Except.map, Bind.bind, Except.bind] at hfold
      rw [List.nodup_cons] at hnd
      have hlen1 : (applyRanks ranks0 res).length = d.heads.length := by
        rw [applyRanks_length]; exact hlen
      obtain ⟨ihlen, ihuntouched, ihvalue⟩ :=
        ih (applyRanks ranks0 res) final hfold hlen1 hnd.2
      have hnn := headOrder_nonneg strategy d h res hho
      have hres_nodup := headOrder_nodup strategy d h res hho
      refine ⟨ihlen, ?_, ?_⟩
      · intro j hj
        have hj1 : d.heads.getD j (-1) ∉ hs := fun hc =>
          hj (List.mem_cons_of_mem h hc)
        have hj2 : d.heads.getD j (-1) ≠ h := fun hc =>
          hj (hc ▸ List.mem_cons_self h hs)
        rw [ihuntouched j hj1]
        refine applyRanks_untouched ranks0 res hnn j (fun hc => ?_)
        obtain ⟨j', hj', hjlt', hjhd'⟩ :=
          res_mem_targets strategy d h res hho _ hc
        have hjj : j = j' := by omega
        exact hj2 (by rw [hjj]; exact hjhd')
      · intro head hmem res' hok' k hk
        rcases List.mem_cons.1 hmem with heq | htail
        · subst heq
          rw [hho] at hok'
          have hres' : res = res' := by
            simpa using hok'
          subst hres'
          have hkmem : res[k] ∈ res := List.getElem_mem hk
          obtain ⟨j, hj, hjlt, hjhd⟩ :=
            res_mem_targets strategy d head res hho _ hkmem
          have hget : res[k]! = res[k] := getElem!_pos res k hk
          rw [hget]
          have hjeq : (res[k]).toNat = j := by omega
          have huntouched : d.heads.getD ((res[k]).toNat) (-1) ∉ hs := by
            rw [hjeq, hjhd]
            exact hnd.1
          rw [ihuntouched _ huntouched]
          exact applyRanks_at ranks0 res hres_nodup hnn k hk
            (by rw [hlen]; omega)
        · exact ihvalue head htail res' hok' k hk

lemma predictFold_ok_heads (strategy : String) (d : DepTree) :
    ∀ (hs : List Int) (ranks0 final : List Nat),
      hs.foldlM (fun ranks head =>
        (applyRanks ranks) <$> headOrder strategy d head) ranks0 = .ok final →
      ∀ head ∈ hs, ∃ res, headOrder strategy d head = .ok res := by
  intro hs
  induction hs with
  | nil => intro ranks0 final _ head hmem; exact absurd hmem (by simp)
  | cons h hs ih =>
    intro ranks0 final hfold head hmem
    rw [List.foldlM_cons] at hfold
    cases hho : headOrder strategy d h with
    | error e =>
      rw [hho] at hfold
      simp only [Functor.map, Except.map, Bind.bind, Except.bind] at hfold
      exact absurd hfold (by simp)
    | ok res =>
      rw [hho] at hfold
      simp only [Functor.map, Except.map, Bind.bind, Except.bind] at hfold
      rcases List.mem_cons.1 hmem with heq | htail
      · exact ⟨res, heq ▸ hho⟩
      · exact ih _ final hfold head htail

lemma map_indexOf_self (l : List Int) (hnd : l.Nodup) :
    l.map (fun x => List.indexOf x l) = List.range l.length := by
  apply List.ext_getElem (by simp)
  intro i h1 h2
  simp only [List.getElem_map, List.getElem_range]
  exact List.indexOf_getElem hnd i (by simpa using h1)

lemma replicate_getD_zero (n j : Nat) :
    (List.replicate n (0 : Nat)).getD j 0 = 0 := by
  rw [List.getD_eq_getElem?_getD, List.getElem?_replicate]
  by_cases hj : j < n <;> simp [hj]

/-- Per-tree permutation property of a successful `predict`: for every
head value `h`, the ranks of the nodes whose head is `h` form a
permutation of `0..k-1`. -/
lemma predictOne_perm (strategy : String) (d : DepTree) (ranks : List Nat)
    (hok : predictOne strategy d = .ok ranks) (h : Int) :
    ((headTargets d h).map (fun j => ranks.getD j 0)).Perm
      (List.range (headTargets d h).length) := by
  unfold predictOne at hok
  obtain ⟨hlen, huntouched, hvalue⟩ :=
    predictFold_spec strategy d (uniqueHeads d) _ ranks hok
      (by rw [List.length_replicate]) (List.nodup_dedup _)
  by_cases hmem : h ∈ uniqueHeads d
  · obtain ⟨res, hres⟩ :=
      predictFold_ok_heads strategy d (uniqueHeads d) _ ranks hok h hmem
    have hperm := headOrder_perm strategy d h res hres
    have hnd := headOrder_nodup strategy d h res hres
    have hmapeq : (headTargets d h).map (fun j => ranks.getD j 0) =
        (headTargets d h).map (fun j : Nat => List.indexOf (Int.ofNat j) res) := by
      apply List.map_congr_left
      intro j hj
      have hjres : Int.ofNat j ∈ res :=
        hperm.mem_iff.2 (List.mem_map_of_mem Int.ofNat hj)
      have hklt : List.indexOf (Int.ofNat j) res < res.length :=
        List.indexOf_lt_length.2 hjres
      have hkval : res[List.indexOf (Int.ofNat j) res] = Int.ofNat j :=
        List.getElem_indexOf hklt
      have := hvalue h hmem res hres (List.indexOf (Int.ofNat j) res) hklt
      rw [getElem!_pos res _ hklt, hkval] at this
      simpa using this
    rw [hmapeq]
    have hcomp : (headTargets d h).map
          (fun j : Nat => List.indexOf (Int.ofNat j) res) =
        ((headTargets d h).map Int.ofNat).map (fun x => List.indexOf x res) := by
      rw [List.map_map]
      rfl
    rw [hcomp]
    have hstep : (((headTargets d h).map Int.ofNat).map
        (fun x => List.indexOf x res)).Perm
        (res.map (fun x => List.indexOf x res)) :=
      List.Perm.map _ hperm.symm
    refine List.Perm.trans hstep ?_
    rw [map_indexOf_self res hnd, hperm.length_eq, List.length_map]
  · have hzero : ∀ j ∈ headTargets d h, j = 0 := by
      intro j hj
      obtain ⟨hjlt, hjhd⟩ := (headTargets_mem d h j).1 hj
      by_contra hne
      apply hmem
      have hj1 : 1 ≤ j := by omega
      refine List.mem_dedup.2 ?_
      rw [← hjhd]
      have hgd : d.heads.getD j (-1) = d.heads[j] := by
        rw [List.getD_eq_getElem?_getD, List.getElem?_eq_getElem hjlt]
        rfl
      rw [hgd]
      refine List.mem_iff_getElem?.2 ⟨j - 1, ?_⟩
      rw [List.getElem?_drop]
      have hidx : 1 + (j - 1) = j := by omega
      rw [hidx]
      rw [List.getElem?_eq_getElem hjlt]
    rcases hT : headTargets d h with _ | ⟨a, tail⟩
    · simp
    · have ha : a = 0 := hzero a (by rw [hT]; exact List.mem_cons_self a tail)
      have htail : tail = [] := by
        cases htl : tail with
        | nil => rfl
        | cons b tail2 =>
          exfalso
          have hb : b = 0 := hzero b
            (by rw [hT, htl]
                exact List.mem_cons_of_mem a (List.mem_cons_self b tail2))
          have hndT := headTargets_nodup d h
          rw [hT, htl, ha, hb] at hndT
          simp at hndT
      subst ha htail
      have h0mem : (0 : Nat) ∈ headTargets d h := by
        rw [hT]; exact List.mem_cons_self 0 []
      have h0hd : d.heads.getD 0 (-1) = h := ((headTargets_mem d h 0).1 h0mem).2
      have hval : ranks.getD 0 0 = 0 := by
        rw [huntouched 0 (h0hd ▸ hmem), replicate_getD_zero]
      simp only [List.map_cons, List.map_nil, hval, List.length_cons,
        List.length_nil]
      exact List.Perm.of_eq (by rfl)

/-- C1: for every dependency tree in a batch and every ranking strategy,
whenever `InsideOutAttachmentRanker.predict` returns rank arrays, the
ranks restricted to the children of any single head form a permutation
of `0..k-1`. -/
theorem c1_ranks_are_sibling_permutations (strategy : String)
    (X : List DepTree) (rss : List (List Nat))
    (hok : ranker_predict (InsideOutAttachmentRanker.mk strategy) X = .ok rss)
    (i : Nat) (hi : i < X.length) (h : Int) :
    ((headTargets (X.getD i default) h).map
        (fun j => (rss.getD i []).getD j 0)).Perm
      (List.range (headTargets (X.getD i default) h).length) := by
  have hone : ∀ (Y : List DepTree) (rs : List (List Nat)),
      Y.mapM (predictOne strategy) = .ok rs →
      ∀ k, k < Y.length →
        predictOne strategy (Y.getD k default) = .ok (rs.getD k []) := by
    intro Y
    induction Y with
    | nil => intro rs _ k hk; exact absurd hk (by simp)
    | cons y Y ihY =>
      intro rs hmap k hk
      rw [List.mapM_cons] at hmap
      cases hy : predictOne strategy y with
      | error e =>
        rw [hy] at hmap
        simp only [Bind.bind, Except.bind] at hmap
        exact absurd hmap (by simp)
      | ok ry =>
        rw [hy] at hmap
        simp only [Bind.bind, Except.bind] at hmap
        cases hrest : Y.mapM (predictOne strategy) with
        | error e =>
          rw [hrest] at hmap
          simp only [Except.bind] at hmap
          exact absurd hmap (by simp)
        | ok rY =>
          rw [hrest] at hmap
          simp only [Except.bind, pure, Except.pure, Except.ok.injEq] at hmap
          subst hmap
          cases k with
          | zero => simpa using hy
          | succ k =>
            have := ihY rY hrest k (by simpa using hk)
            simpa using this
  exact predictOne_perm strategy (X.getD i default) (rss.getD i [])
    (hone X rss hok i hi) h

theorem c1_ranks_are_sibling_permutations_witness :
    ∃ rss, ranker_predict (InsideOutAttachmentRanker.mk "lrlrlr")
        [exDocstringTree] = .ok rss ∧
      ((headTargets exDocstringTree 1).map
          (fun j => (rss.getD 0 []).getD j 0)).Perm
        (List.range (headTargets exDocstringTree 1).length) :=
  ⟨_, rfl, c1_ranks_are_sibling_permutations "lrlrlr" [exDocstringTree] _
    rfl 0 (by decide) 1⟩

lemma mem_uniqueHeads_of_target (d : DepTree) (j : Nat)
    (hjlt : j < d.heads.length) (hj1 : 1 ≤ j) (h : Int)
    (hjhd : d.heads.getD j (-1) = h) : h ∈ uniqueHeads d := by
  refine List.mem_dedup.2 ?_
  rw [← hjhd]
  have hgd : d.heads.getD j (-1) = d.heads[j] := by
    rw [List.getD_eq_getElem?_getD, List.getElem?_eq_getElem hjlt]
    rfl
  rw [hgd]
  refine List.mem_iff_getElem?.2 ⟨j - 1, ?_⟩
  rw [List.getElem?_drop]
  have hidx : 1 + (j - 1) = j := by omega
  rw [hidx]
  rw [List.getElem?_eq_getElem hjlt]

lemma headOrder_closest_lr (d : DepTree) (h : Int) :
    headOrder "closest-lr" d h = .ok (sortClosest d h 2 1 (headTargets d h)) := by
  rfl

lemma headOrder_closest_rl (d : DepTree) (h : Int) :
    headOrder "closest-rl" d h = .ok (sortClosest d h 1 2 (headTargets d h)) := by
  rfl

/-- C7: for a head with exactly two dependents at identical absolute
text-distance on opposite sides, `closest-lr` ranks the left dependent
0 and the right one 1, and `closest-rl` the reverse. -/
theorem c7_closest_tie_break (d : DepTree) (h : Int) (a b : Nat)
    (hT : headTargets d h = [a, b])
    (hleft : pyGetD d.idx (Int.ofNat a) 0 < pyGetD d.idx h 0)
    (hright : pyGetD d.idx h 0 < pyGetD d.idx (Int.ofNat b) 0)
    (hdist : (pyGetD d.idx (Int.ofNat a) 0 - pyGetD d.idx h 0).natAbs =
             (pyGetD d.idx (Int.ofNat b) 0 - pyGetD d.idx h 0).natAbs) :
    (∀ ranks, predictOne "closest-lr" d = .ok ranks →
      ranks.getD a 0 = 0 ∧ ranks.getD b 0 = 1) ∧
    (∀ ranks, predictOne "closest-rl" d = .ok ranks →
      ranks.getD b 0 = 0 ∧ ranks.getD a 0 = 1) := by
  have hamem : a ∈ headTargets d h := by
    rw [hT]; exact List.mem_cons_self a [b]
  have hbmem : b ∈ headTargets d h := by
    rw [hT]; exact List.mem_cons_of_mem a (List.mem_cons_self b [])
  obtain ⟨halt, hahd⟩ := (headTargets_mem d h a).1 hamem
  obtain ⟨hblt, hbhd⟩ := (headTargets_mem d h b).1 hbmem
  have hab : a ≠ b := by
    have hnd := headTargets_nodup d h
    rw [hT] at hnd
    simp at hnd
    intro hcontra
    exact hnd (hcontra ▸ rfl)
  have hmem : h ∈ uniqueHeads d := by
    by_cases ha0 : 1 ≤ a
    · exact mem_uniqueHeads_of_target d a halt ha0 h hahd
    · have hb1 : 1 ≤ b := by omega
      exact mem_uniqueHeads_of_target d b hblt hb1 h hbhd
  have hreslr : sortClosest d h 2 1 (headTargets d h) =
      [Int.ofNat a, Int.ofNat b] := by
    rw [hT]
    unfold sortClosest
    simp only [List.map_cons, List.map_nil, List.insertionSort,
      List.orderedInsert]
    rw [if_pos]
    unfold lex2 closestKey
    dsimp only
    refine Or.inr ⟨by omega, ?_⟩
    rw [if_neg (by omega), if_pos (by omega)]
    omega
  have hresrl : sortClosest d h 1 2 (headTargets d h) =
      [Int.ofNat b, Int.ofNat a] := by
    rw [hT]
    unfold sortClosest
    simp only [List.map_cons, List.map_nil, List.insertionSort,
      List.orderedInsert]
    have hnr : ¬ lex2 (closestKey d h 1 2 (Int.ofNat a))
        (closestKey d h 1 2 (Int.ofNat b)) := by
      unfold lex2 closestKey
      dsimp only
      rw [if_neg (by omega), if_pos (by omega)]
      omega
    rw [if_neg hnr]
  constructor
  · intro ranks hok
    unfold predictOne at hok
    obtain ⟨hlen, _, hvalue⟩ :=
      predictFold_spec "closest-lr" d (uniqueHeads d) _ ranks hok
        (by rw [List.length_replicate]) (List.nodup_dedup _)
    have hrv := hvalue h hmem _ (headOrder_closest_lr d h)
    rw [hreslr] at hrv
    constructor
    · have := hrv 0 (by simp)
      simpa using this
    · have := hrv 1 (by simp)
      simpa using this
  · intro ranks hok
    unfold predictOne at hok
    obtain ⟨hlen, _, hvalue⟩ :=
      predictFold_spec "closest-rl" d (uniqueHeads d) _ ranks hok
        (by rw [List.length_replicate]) (List.nodup_dedup _)
    have hrv := hvalue h hmem _ (headOrder_closest_rl d h)
    rw [hresrl] at hrv
    constructor
    · have := hrv 0 (by simp)
      simpa using this
    · have := hrv 1 (by simp)
      simpa using this

/-- Example input for the tie-break witness: head node 2 with dependents
1 (one EDU to the left) and 3 (one EDU to the right). -/
def exTieTree : DepTree :=
  DepTree.mk [-1, 2, 0, 2] ["", "x", "root", "y"]
    [NUC_S, NUC_S, NUC_S, NUC_S]
    [⟨0, ⟨0, 0⟩⟩, ⟨1, ⟨0, 5⟩⟩, ⟨2, ⟨6, 9⟩⟩, ⟨3, ⟨10, 12⟩⟩]
    [0, 1, 2, 3] none [0, 0, 0, 0]

theorem c7_closest_tie_break_witness :
    ∃ ranks ranks' : List Nat,
      predictOne "closest-lr" exTieTree = .ok ranks ∧
      ranks.getD 1 0 = 0 ∧ ranks.getD 3 0 = 1 ∧
      predictOne "closest-rl" exTieTree = .ok ranks' ∧
      ranks'.getD 3 0 = 0 ∧ ranks'.getD 1 0 = 1 := by
  have hc := c7_closest_tie_break exTieTree 2 1 3 (by rfl)
    (by decide) (by decide) (by decide)
  exact ⟨_, _, rfl, (hc.1 _ rfl).1, (hc.1 _ rfl).2,
    rfl, (hc.2 _ rfl).1, (hc.2 _ rfl).2⟩

lemma leavesP_mk_leaf (e : EDU) : leavesP (mk_leaf e) = [e] := rfl

lemma leavesP_two (p : TreeParts) (l r : SimpleRSTTree)
    (hk : p.kids = [l, r]) : leavesP p = leavesT l ++ leavesT r := by
  unfold leavesP
  rw [hk]
  show leavesT l ++ leavesL [r] = leavesT l ++ leavesT r
  show leavesT l ++ (leavesT r ++ leavesL []) = leavesT l ++ leavesT r
  show leavesT l ++ (leavesT r ++ []) = leavesT l ++ leavesT r
  rw [List.append_nil]

lemma connect_leaves_perm (src tgt : TreeParts) (rel : String) (nuc : Nuc)
    (res : TreeParts) (hok : connect_trees src tgt rel nuc = .ok res) :
    (leavesP res).Perm (leavesP src ++ leavesP tgt) := by
  rcases (connect_ok_shape src tgt rel nuc res hok).2.2.1 with hkids | hkids
  · rw [leavesP_two res _ _ hkids, leavesT_parts_to_tree, leavesT_parts_to_tree]
  · rw [leavesP_two res _ _ hkids, leavesT_parts_to_tree, leavesT_parts_to_tree]
    exact List.perm_append_comm

lemma walk_leaves_visited (d : DepTree) :
    ∀ (fuel : Nat) (anc : Option TreeParts) (i : Nat) (parts : TreeParts),
      walk d fuel anc i = .ok parts →
      (leavesP parts).Perm
        ((match anc with | some a => leavesP a | none => []) ++
          (visited d fuel i).map (eduAt d)) ∧
      (∀ j ∈ visited d fuel i, ∀ c ∈ d.deps j, c ∈ visited d fuel i) := by
  intro fuel
  induction fuel with
  | zero => intro anc i parts hok; exact absurd hok (by simp [walk])
  | succ fuel ih =>
    intro anc i parts hok
    obtain ⟨src, hfold, hcase⟩ := walk_ok_cases d fuel anc i parts hok
    have F : ∀ (ts : List Nat) (s0 s1 : TreeParts),
        ts.foldlM (fun s t => walk d fuel (some s) t) s0 = .ok s1 →
        (leavesP s1).Perm (leavesP s0 ++
          ts.flatMap (fun c => (visited d fuel c).map (eduAt d))) ∧
        (∀ c ∈ ts, 0 < fuel ∧
          (∀ j ∈ visited d fuel c, ∀ c' ∈ d.deps j, c' ∈ visited d fuel c)) := by
      intro ts
      induction ts with
      | nil =>
        intro s0 s1 h
        simp only [List.foldlM_nil, pure, Except.pure, Except.ok.injEq] at h
        subst h
        refine ⟨?_, fun c hc => absurd hc (by simp)⟩
        rw [List.flatMap_nil, List.append_nil]
      | cons t ts iht =>
        intro s0 s1 h
        rw [List.foldlM_cons] at h
        cases hw : walk d fuel (some s0) t with
        | error e =>
          rw [hw] at h
          simp only [Bind.bind, Except.bind] at h
          exact absurd h (by simp)
        | ok s' =>
          rw [hw] at h
          simp only [Bind.bind, Except.bind] at h
          have hfuelpos : 0 < fuel := by
            cases fuel with
            | zero => exact absurd hw (by simp [walk])
            | succ f => exact Nat.succ_pos f
          obtain ⟨ihperm, ihclosed⟩ := ih (some s0) t s' hw
          obtain ⟨itperm, itclosed⟩ := iht s' s1 h
          refine ⟨?_, ?_⟩
          · rw [List.flatMap_cons]
            refine List.Perm.trans itperm ?_
            refine List.Perm.trans (List.Perm.append_right _ ihperm) ?_
            rw [List.append_assoc]
          · intro c hc
            rcases List.mem_cons.1 hc with heq | htail
            · exact ⟨hfuelpos, heq ▸ ihclosed⟩
            · exact itclosed c htail
    obtain ⟨hsrcperm, hclosed⟩ := F _ _ _ hfold
    rw [leavesP_mk_leaf] at hsrcperm
    have hvis : (visited d (fuel + 1) i).map (eduAt d) =
        eduAt d i :: (d.deps i).flatMap
          (fun c => (visited d fuel c).map (eduAt d)) := by
      show ((i :: (d.deps i).flatMap (visited d fuel)).map (eduAt d)) = _
      rw [List.map_cons, List.map_flatMap]
    have hclosure : ∀ j ∈ visited d (fuel + 1) i, ∀ c ∈ d.deps j,
        c ∈ visited d (fuel + 1) i := by
      intro j hj c hc
      show c ∈ i :: (d.deps i).flatMap (visited d fuel)
      have hji : j ∈ i :: (d.deps i).flatMap (visited d fuel) := hj
      rcases List.mem_cons.1 hji with heq | hflat
      · rw [heq] at hc
        refine List.mem_cons_of_mem i (List.mem_flatMap.2 ⟨c, hc, ?_⟩)
        obtain ⟨hfp, _⟩ := hclosed c hc
        obtain ⟨f, hf⟩ : ∃ f, fuel = f + 1 := ⟨fuel - 1, by omega⟩
        rw [hf]
        exact List.mem_cons_self c _
      · obtain ⟨c0, hc0, hjc0⟩ := List.mem_flatMap.1 hflat
        obtain ⟨_, hcl⟩ := hclosed c0 hc0
        exact List.mem_cons_of_mem i
          (List.mem_flatMap.2 ⟨c0, hc0, hcl j hjc0 c hc⟩)
    refine ⟨?_, hclosure⟩
    rcases hcase with ⟨hancn, hps⟩ | ⟨a, hancs, hconn⟩
    · subst hancn
      rw [hps, hvis]
      rw [List.nil_append]
      exact hsrcperm
    · subst hancs
      rw [hvis]
      refine List.Perm.trans (connect_leaves_perm a src _ _ parts hconn) ?_
      refine List.Perm.trans (List.Perm.append_left (leavesP a) hsrcperm) ?_
      exact List.Perm.refl _

lemma connect_ok_cases (src tgt : TreeParts) (rel : String) (nuc : Nuc)
    (res : TreeParts) (hok : connect_trees src tgt rel nuc = .ok res) :
    Span.overlapsb src.span tgt.span = false ∧
    res.span = src.span.merge tgt.span ∧
    ((Span.leb src.span tgt.span = true ∧
      leavesP res = leavesP src ++ leavesP tgt) ∨
     (Span.leb src.span tgt.span = false ∧
      leavesP res = leavesP tgt ++ leavesP src)) := by
  unfold connect_trees at hok
  by_cases hov : Span.overlapsb src.span tgt.span
  · rw [if_pos hov] at hok; exact absurd hok (by simp)
  · rw [if_neg hov] at hok
    simp only [Except.ok.injEq] at hok
    subst hok
    by_cases hle : Span.leb src.span tgt.span
    · rw [if_pos hle]
      refine ⟨by simp [hov], rfl, Or.inl ⟨hle, ?_⟩⟩
      rw [leavesP_two _ _ _ rfl, leavesT_parts_to_tree, leavesT_parts_to_tree]
    · rw [if_neg hle]
      refine ⟨by simp [hov], rfl, Or.inr ⟨by simp [hle], ?_⟩⟩
      rw [leavesP_two _ _ _ rfl, leavesT_parts_to_tree, leavesT_parts_to_tree]

/-- The textual invariant carried through the fold: the partial tree has
at least one leaf, every leaf has a non-empty span, consecutive leaves
are separated (each ends no later than the next starts), and every leaf
span lies inside the partial tree's hull span. -/
def InvP (p : TreeParts) : Prop :=
  leavesP p ≠ [] ∧
  (∀ e ∈ leavesP p, e.span.char_start < e.span.char_end) ∧
  (leavesP p).Pairwise (fun a b => a.span.char_end ≤ b.span.char_start) ∧
  (∀ e ∈ leavesP p, p.span.char_start ≤ e.span.char_start ∧
    e.span.char_end ≤ p.span.char_end)

lemma InvP_mk_leaf (e : EDU) (hne : e.span.char_start < e.span.char_end) :
    InvP (mk_leaf e) := by
  refine ⟨by simp [leavesP_mk_leaf], ?_, ?_, ?_⟩
  · intro e' he'
    rw [leavesP_mk_leaf, List.mem_singleton] at he'
    rw [he']; exact hne
  · rw [leavesP_mk_leaf]
    simp
  · intro e' he'
    rw [leavesP_mk_leaf, List.mem_singleton] at he'
    rw [he']; exact ⟨Nat.le_refl _, Nat.le_refl _⟩

lemma connect_InvP (src tgt : TreeParts) (rel : String) (nuc : Nuc)
    (res : TreeParts) (hok : connect_trees src tgt rel nuc = .ok res)
    (hsrc : InvP src) (htgt : InvP tgt) : InvP res := by
  obtain ⟨hov, hspan, hcase⟩ := connect_ok_cases src tgt rel nuc res hok
  obtain ⟨hs_ne, hs_nee, hs_pw, hs_bd⟩ := hsrc
  obtain ⟨ht_ne, ht_nee, ht_pw, ht_bd⟩ := htgt
  obtain ⟨es, hes⟩ := List.exists_mem_of_ne_nil _ hs_ne
  obtain ⟨et, het⟩ := List.exists_mem_of_ne_nil _ ht_ne
  have hs_hull : src.span.char_start < src.span.char_end := by
    have h1 := hs_nee es hes
    have h2 := hs_bd es hes
    omega
  have ht_hull : tgt.span.char_start < tgt.span.char_end := by
    have h1 := ht_nee et het
    have h2 := ht_bd et het
    omega
  have hov' : ¬ (max src.span.char_start tgt.span.char_start <
      min src.span.char_end tgt.span.char_end) := by
    unfold Span.overlapsb at hov
    exact of_decide_eq_false hov
  have hmerge_start : res.span.char_start =
      min src.span.char_start tgt.span.char_start := by rw [hspan]; rfl
  have hmerge_end : res.span.char_end =
      max src.span.char_end tgt.span.char_end := by rw [hspan]; rfl
  rcases hcase with ⟨hle, hleaves⟩ | ⟨hle, hleaves⟩
  · have hle' : src.span.char_start < tgt.span.char_start ∨
        (src.span.char_start = tgt.span.char_start ∧
         src.span.char_end ≤ tgt.span.char_end) := by
      unfold Span.leb at hle
      exact of_decide_eq_true hle
    have hsep : src.span.char_end ≤ tgt.span.char_start := by omega
    refine ⟨?_, ?_, ?_, ?_⟩ <;> rw [hleaves]
    · simp only [ne_eq, List.append_eq_nil]
      intro ⟨h1, _⟩
      exact hs_ne h1
    · intro e he
      rcases List.mem_append.1 he with h | h
      · exact hs_nee e h
      · exact ht_nee e h
    · rw [List.pairwise_append]
      refine ⟨hs_pw, ht_pw, ?_⟩
      intro a ha b hb
      have h1 := (hs_bd a ha).2
      have h2 := (ht_bd b hb).1
      omega
    · intro e he
      rcases List.mem_append.1 he with h | h
      · have := hs_bd e h; omega
      · have := ht_bd e h; omega
  · have hle' : ¬ (src.span.char_start < tgt.span.char_start ∨
        (src.span.char_start = tgt.span.char_start ∧
         src.span.char_end ≤ tgt.span.char_end)) := by
      unfold Span.leb at hle
      exact of_decide_eq_false hle
    have hsep : tgt.span.char_end ≤ src.span.char_start := by omega
    refine ⟨?_, ?_, ?_, ?_⟩ <;> rw [hleaves]
    · simp only [ne_eq, List.append_eq_nil]
      intro ⟨h1, _⟩
      exact ht_ne h1
    · intro e he
      rcases List.mem_append.1 he with h | h
      · exact ht_nee e h
      · exact hs_nee e h
    · rw [List.pairwise_append]
      refine ⟨ht_pw, hs_pw, ?_⟩
      intro a ha b hb
      have h1 := (ht_bd a ha).2
      have h2 := (hs_bd b hb).1
      omega
    · intro e he
      rcases List.mem_append.1 he with h | h
      · have := ht_bd e h; omega
      · have := hs_bd e h; omega

lemma getD_congr {α : Type} (l : List α) (j : Nat) (d1 d2 : α)
    (h : j < l.length) : l.getD j d1 = l.getD j d2 := by
  rw [List.getD_eq_getElem?_getD, List.getD_eq_getElem?_getD,
    List.getElem?_eq_getElem h]
  rfl

lemma mem_deps (d : DepTree) (i c : Nat) :
    c ∈ d.deps i ↔
      (c < d.heads.length ∧ d.heads.getD c (-1) = (i : Int)) := by
  unfold DepTree.deps
  rw [List.mem_insertionSort, List.mem_filter, List.mem_range]
  simp

lemma deps_admissible (d : DepTree) (hwf : WFDepTree d) (i c : Nat)
    (hc : c ∈ d.deps i) : 1 ≤ c ∧ c < d.heads.length := by
  obtain ⟨hlt, hhd⟩ := (mem_deps d i c).1 hc
  refine ⟨?_, hlt⟩
  by_contra hc0
  have hc0' : c = 0 := by omega
  subst hc0'
  rw [getD_congr d.heads 0 (-1) 0 hwf.len_pos, hwf.head0] at hhd
  omega

lemma walk_InvP (d : DepTree) (hwf : WFDepTree d) :
    ∀ (fuel : Nat) (anc : Option TreeParts) (i : Nat) (parts : TreeParts),
      (1 ≤ i ∧ i < d.heads.length) → walk d fuel anc i = .ok parts →
      (∀ a, anc = some a → InvP a) → InvP parts := by
  refine walk_preserves d InvP (fun i => 1 ≤ i ∧ i < d.heads.length)
    ?_ ?_ ?_
  · intro i hi
    exact InvP_mk_leaf _ (hwf.spans_ne i hi.2 hi.1)
  · intro i j _ hj
    exact deps_admissible d hwf i j hj
  · intro src tgt rel nuc res hok hs ht
    exact connect_InvP src tgt rel nuc res hok hs ht

lemma visited_sub (d : DepTree) (hwf : WFDepTree d) :
    ∀ (fuel : Nat) (i : Nat), 1 ≤ i → i < d.heads.length →
      ∀ j ∈ visited d fuel i, 1 ≤ j ∧ j < d.heads.length := by
  intro fuel
  induction fuel with
  | zero => intro i _ _ j hj; exact absurd hj (by simp [visited])
  | succ fuel ih =>
    intro i h1 h2 j hj
    have hj' : j ∈ i :: (d.deps i).flatMap (visited d fuel) := hj
    rcases List.mem_cons.1 hj' with heq | hflat
    · rw [heq]; exact ⟨h1, h2⟩
    · obtain ⟨c, hc, hjc⟩ := List.mem_flatMap.1 hflat
      obtain ⟨hc1, hc2⟩ := deps_admissible d hwf i c hc
      exact ih c hc1 hc2 j hjc

lemma visited_complete (d : DepTree) (hwf : WFDepTree d) (r : Nat)
    (hroots : d.real_roots_idx = [r]) (fuel : Nat) (parts : TreeParts)
    (hw : walk d fuel none r = .ok parts) :
    ∀ j, 1 ≤ j → j < d.heads.length → j ∈ visited d fuel r := by
  obtain ⟨depthf, hdepth⟩ := hwf.acyclic
  have hclosed := (walk_leaves_visited d fuel none r parts hw).2
  have hfuelpos : ∃ f, fuel = f + 1 := by
    cases fuel with
    | zero => exact absurd hw (by simp [walk])
    | succ f => exact ⟨f, rfl⟩
  have hrmem : r ∈ visited d fuel r := by
    obtain ⟨f, hf⟩ := hfuelpos
    rw [hf]
    exact List.mem_cons_self r _
  suffices H : ∀ n j, depthf j < n → 1 ≤ j → j < d.heads.length →
      j ∈ visited d fuel r by
    intro j h1 h2
    exact H (depthf j + 1) j (by omega) h1 h2
  intro n
  induction n with
  | zero => intro j hd; omega
  | succ n ihn =>
    intro j hdj h1 h2
    by_cases hj0 : (d.heads.getD j (-1)).toNat = 0
    · have hjroot : j ∈ d.real_roots_idx := by
        unfold DepTree.real_roots_idx
        rw [List.mem_filter, List.mem_range]
        refine ⟨h2, ?_⟩
        rw [decide_eq_true_iff]
        refine ⟨h1, ?_⟩
        have := hwf.head_lb j h2 h1
        omega
      rw [hroots] at hjroot
      have : j = r := List.mem_singleton.1 hjroot
      rw [this]
      exact hrmem
    · have hlb := hwf.head_lb j h2 h1
      have hub := hwf.head_ub j h2 h1
      have hdec := hdepth j h2 h1 hj0
      have hparent : (d.heads.getD j (-1)).toNat ∈ visited d fuel r :=
        ihn _ (by omega) (by omega) hub
      refine hclosed _ hparent j ?_
      rw [mem_deps]
      refine ⟨h2, ?_⟩
      omega

lemma map_getD_range'_drop {α : Type} (l : List α) (dflt : α) :
    (List.range' 1 (l.length - 1)).map (fun j => l.getD j dflt) =
      l.drop 1 := by
  apply List.ext_getElem
  · rw [List.length_map, List.length_range', List.length_drop]
  · intro i h1 h2
    rw [List.length_map, List.length_range'] at h1
    simp only [List.getElem_map, List.getElem_range']
    have hlt : 1 + 1 * i < l.length := by omega
    rw [List.getD_eq_getElem?_getD, List.getElem?_eq_getElem hlt]
    have hlt2 : 1 + i < l.length := by omega
    have hdi : (List.drop 1 l)[i] = l[1 + i] := List.getElem_drop l
    rw [hdi]
    simp only [Option.getD_some]
    congr 1
    omega

/-- C2: for a well-formed input tree, the leaves of a returned
constituency tree, read left to right, are exactly the real input units
(no omission, no duplication) in strictly increasing text position. -/
theorem c2_output_leaves_are_sorted_units (d : DepTree) (hwf : WFDepTree d)
    (t : SimpleRSTTree) (hok : deptree_to_simple_rst_tree d = .ok t) :
    (leavesT t).Perm (d.edus.drop 1) ∧
    (leavesT t).Pairwise
      (fun a b => a.span.char_start < b.span.char_start) := by
  unfold deptree_to_simple_rst_tree at hok
  rcases hroots : d.real_roots_idx with _ | ⟨r, _ | ⟨s, rest⟩⟩ <;>
    rw [hroots] at hok <;> dsimp only at hok
  · simp at hok
  · cases hw : walk d d.heads.length none r with
    | error e =>
      rw [hw] at hok
      exact absurd hok (by simp [Functor.map, Except.map])
    | ok rparts =>
      rw [hw] at hok
      simp only [Functor.map, Except.map, Except.ok.injEq] at hok
      rw [← hok, leavesT_parts_to_tree]
      have hr : r ∈ d.real_roots_idx := by
        rw [hroots]; exact List.mem_singleton.2 rfl
      have hrfl := List.mem_filter.1 hr
      have hrlt : r < d.heads.length := List.mem_range.1 hrfl.1
      have hr1 : 1 ≤ r := (of_decide_eq_true hrfl.2).1
      have hinv := walk_InvP d hwf d.heads.length none r rparts
        ⟨hr1, hrlt⟩ hw (by intro a ha; cases ha)
      obtain ⟨hne, hnee, hpw, hbd⟩ := hinv
      have hsorted : (leavesP rparts).Pairwise
          (fun a b => a.span.char_start < b.span.char_start) :=
        hpw.imp_of_mem (fun ha _ hr => by have := hnee _ ha; omega)
      have hperm := (walk_leaves_visited d d.heads.length none r rparts hw).1
      have hperm' : (leavesP rparts).Perm
          ((visited d d.heads.length r).map (eduAt d)) := hperm
      have hnd_leaves : (leavesP rparts).Nodup :=
        hsorted.imp (fun hlt heq => absurd (heq ▸ hlt) (lt_irrefl _))
      have hnd_vis_map : ((visited d d.heads.length r).map (eduAt d)).Nodup :=
        (List.Perm.nodup_iff hperm').1 hnd_leaves
      have hnd_vis := List.Nodup.of_map _ hnd_vis_map
      have hvis_range : (visited d d.heads.length r).Perm
          (List.range' 1 (d.heads.length - 1)) := by
        rw [List.perm_ext_iff_of_nodup hnd_vis (List.nodup_range' _ _)]
        intro j
        rw [List.mem_range'_1]
        constructor
        · intro hj
          have := visited_sub d hwf d.heads.length r hr1 hrlt j hj
          omega
        · rintro ⟨hj1, hj2⟩
          exact visited_complete d hwf r hroots d.heads.length rparts hw
            j hj1 (by omega)
      have hfin : ((visited d d.heads.length r).map (eduAt d)).Perm
          (d.edus.drop 1) := by
        refine List.Perm.trans (List.Perm.map _ hvis_range) ?_
        have hlen : d.heads.length - 1 = d.edus.length - 1 := by
          rw [hwf.edus_len]
        rw [hlen]
        exact List.Perm.of_eq (map_getD_range'_drop d.edus default)
      exact ⟨hperm'.trans hfin, hsorted⟩
  · simp at hok

lemma exThreeNode_wf : WFDepTree exThreeNode := by
  refine ⟨by decide, by decide, by decide, by decide,
    ⟨fun i => i, by decide⟩, by decide, by decide, by decide⟩

theorem c2_output_leaves_are_sorted_units_witness :
    ∃ t, deptree_to_simple_rst_tree exThreeNode = .ok t ∧
      (leavesT t).Perm (exThreeNode.edus.drop 1) ∧
      (leavesT t).Pairwise
        (fun a b => a.span.char_start < b.span.char_start) :=
  ⟨_, rfl,
    c2_output_leaves_are_sorted_units exThreeNode exThreeNode_wf _ rfl⟩
